import Mathlib

/-!
# Verification of the String Art Generator core

Shallow embedding of the greedy string-art solver
(`src/lib/algorithms/pinCalculation.ts`, `src/lib/algorithms/lineOptimization.ts`,
`src/lib/math/geometry.ts`, `src/lib/math/interpolation.ts`) together with
proofs and refutations of the specification's claims about it.

Modelling conventions:
* JavaScript numbers that hold integer values (pin indices, pixel
  coordinates, counts) are modelled as `ℤ`; fractional quantities
  (interpolation steps, weights, residual-field values) as `ℚ`; the
  trigonometric pin placement is modelled over `ℝ`.
* The JavaScript `%` operator is the truncating remainder, `Int.tmod`.
* `Float32Array`/`Uint8Array` buffers are modelled as `List ℚ`; an
  out-of-range read that the code guards against never happens in the model.
* TypeScript `T | null` array slots are modelled as `Option`.
-/

namespace StringArt

/-! ## Embedding of `src/lib/algorithms/pinCalculation.ts` -/

/-- `getPinAtOffset(currentPin, offset, numberOfPins)` from
`pinCalculation.ts`: `(currentPin + offset) % numberOfPins`, where `%` is the
JavaScript truncating remainder (`Int.tmod`). -/
def getPinAtOffset (currentPin offset numberOfPins : ℤ) : ℤ :=
  (currentPin + offset).tmod numberOfPins

/-- `calculateMinPinDistance(pin1, pin2, numberOfPins)` from
`pinCalculation.ts`: ring distance `min(|pin2 − pin1|, numberOfPins − |pin2 − pin1|)`. -/
def calculateMinPinDistance (pin1 pin2 numberOfPins : ℤ) : ℤ :=
  min |pin2 - pin1| (numberOfPins - |pin2 - pin1|)

/-- `getValidTargetPins(currentPin, minDistance, numberOfPins, excludePins)`
from `pinCalculation.ts`: walk offsets `minDistance, …, numberOfPins − minDistance − 1`
(there are `numberOfPins − 2·minDistance` of them), map each through
`getPinAtOffset`, and keep those not in `excludePins` (the code pushes inside
the loop, which is the same as filtering the mapped list). -/
def getValidTargetPins (currentPin minDistance numberOfPins : ℤ)
    (excludePins : List ℤ) : List ℤ :=
  ((List.range (numberOfPins - 2 * minDistance).toNat).map
      (fun k : ℕ => getPinAtOffset currentPin (minDistance + (k : ℤ)) numberOfPins)).filter
    (fun p => p ∉ excludePins)

/-- The optional-field parameter record accepted by `validatePinParameters`
(TypeScript `Partial<StringArtParameters>`, restricted to the two fields the
function reads). Field values are arbitrary JavaScript numbers, modelled as `ℚ`. -/
structure PinParams where
  numberOfPins : Option ℚ
  imgSize : Option ℚ
deriving DecidableEq

/-- The `{isValid, errors}` record returned by `validatePinParameters`. -/
structure ValidationResult where
  isValid : Bool
  errors : List String
deriving DecidableEq

/-- `validatePinParameters(params)` from `pinCalculation.ts`: checks each
present field against its bounds, pushing one error string per violated
check, and returns `isValid = (errors.length === 0)`.
`Number.isInteger` on an integer-valued number is modelled by `Rat.isInt`. -/
def validatePinParameters (params : PinParams) : ValidationResult :=
  let errors : List String :=
    (match params.numberOfPins with
     | none => []
     | some np =>
        (if np < 3 then ["Number of pins must be at least 3"] else []) ++
        (if np > 1000 then ["Number of pins should not exceed 1000 for performance reasons"] else []) ++
        (if ¬ np.isInt then ["Number of pins must be an integer"] else [])) ++
    (match params.imgSize with
     | none => []
     | some s =>
        (if s < 100 then ["Image size must be at least 100 pixels"] else []) ++
        (if s > 2000 then ["Image size should not exceed 2000 pixels for performance reasons"] else []) ++
        (if ¬ s.isInt then ["Image size must be an integer"] else []))
  { isValid := errors.isEmpty, errors := errors }

/-! ## C9: the ring offset function -/

/-- C9 counterexample: the claim states `getPinAtOffset(a, o, n_pins)` equals
the mathematical modulus `(a+o) mod n_pins` (the representative in
`[0, n_pins)`) for every integer offset, including negative ones.  At
`a = 0, o = −3, n_pins = 10` the code returns the JavaScript remainder `−3`,
while the mathematical modulus is `7`. -/
theorem getPinAtOffset_negative_offset_cex :
    getPinAtOffset 0 (-3) 10 = -3 ∧ ((0 : ℤ) + (-3)) % 10 = 7 ∧
      getPinAtOffset 0 (-3) 10 ≠ ((0 : ℤ) + (-3)) % 10 := by
  decide

/-- C9 (amended): `getPinAtOffset(a, o, n)` is the truncating remainder
`(a + o).tmod n`; whenever `a + o ≥ 0` and `n ≥ 0` (in particular for every
nonnegative offset from a valid pin index) it agrees with the mathematical
modulus `(a + o) mod n`. -/
theorem getPinAtOffset_eq_emod (a o n : ℤ) (h : 0 ≤ a + o) (hn : 0 ≤ n) :
    getPinAtOffset a o n = (a + o) % n := by
  unfold getPinAtOffset
  exact Int.tmod_eq_emod h hn

/-- C9 witness: the amended theorem applied at `a = 3, o = 4, n = 5`. -/
theorem getPinAtOffset_eq_emod_witness :
    getPinAtOffset 3 4 5 = ((3 : ℤ) + 4) % 5 :=
  getPinAtOffset_eq_emod 3 4 5 (by decide) (by decide)

/-! ## C4: the candidate walk -/

/-- C4: `getValidTargetPins` returns exactly the pins
`(currentPin + o) mod numberOfPins` for `o` from `minDistance` to
`numberOfPins − minDistance − 1` inclusive, in increasing order of `o`, with
pins from the exclusion list omitted (here `%` is the mathematical modulus,
which coincides with the code's remainder because `currentPin + o ≥ 0`);
in particular the two boundary examples from the specification hold. -/
theorem getValidTargetPins_characterisation :
    (∀ (c md n : ℤ) (excl : List ℤ), 0 ≤ c → 0 ≤ md → 0 ≤ n →
      getValidTargetPins c md n excl =
        ((List.range (n - 2 * md).toNat).map
            (fun k : ℕ => (c + (md + (k : ℤ))) % n)).filter (fun p => p ∉ excl))
    ∧ getValidTargetPins 0 2 10 [] = [2, 3, 4, 5, 6, 7]
    ∧ getValidTargetPins 0 2 10 [3, 5] = [2, 4, 6, 7] := by
  refine ⟨fun c md n excl hc hmd hn => ?_, by decide, by decide⟩
  unfold getValidTargetPins
  congr 1
  apply List.map_congr_left
  intro k _
  exact getPinAtOffset_eq_emod c (md + (k : ℤ)) n
    (by omega) hn

/-- C4 witness: the characterisation applied at
`currentPin = 0, minDistance = 2, numberOfPins = 10, exclude = [3,5]`. -/
theorem getValidTargetPins_characterisation_witness :
    getValidTargetPins 0 2 10 [3, 5] =
      ((List.range ((10 : ℤ) - 2 * 2).toNat).map
          (fun k : ℕ => ((0 : ℤ) + (2 + (k : ℤ))) % 10)).filter (fun p => p ∉ [(3 : ℤ), 5]) :=
  getValidTargetPins_characterisation.1 0 2 10 [3, 5] (by decide) (by decide) (by decide)

/-! ## C10: parameter validation -/

/-- C10: `validatePinParameters` returns `isValid = true` exactly when every
present field satisfies its bounds (`numberOfPins` an integer in `[3, 1000]`,
`imgSize` an integer in `[100, 2000]`); `isValid = true` coincides with the
error list being empty; each of the six documented error strings is present
exactly when its bound is violated by a present field (so absent fields are
not checked); and the empty record validates to `{isValid: true, errors: []}`. -/
theorem validatePinParameters_correct :
    (∀ p : PinParams,
      ((validatePinParameters p).isValid = true ↔
        (∀ np, p.numberOfPins = some np → 3 ≤ np ∧ np ≤ 1000 ∧ np.isInt = true) ∧
        (∀ s, p.imgSize = some s → 100 ≤ s ∧ s ≤ 2000 ∧ s.isInt = true)) ∧
      ((validatePinParameters p).isValid = true ↔ (validatePinParameters p).errors = []) ∧
      ("Number of pins must be at least 3" ∈ (validatePinParameters p).errors ↔
        ∃ np, p.numberOfPins = some np ∧ np < 3) ∧
      ("Number of pins should not exceed 1000 for performance reasons" ∈ (validatePinParameters p).errors ↔
        ∃ np, p.numberOfPins = some np ∧ 1000 < np) ∧
      ("Number of pins must be an integer" ∈ (validatePinParameters p).errors ↔
        ∃ np, p.numberOfPins = some np ∧ np.isInt = false) ∧
      ("Image size must be at least 100 pixels" ∈ (validatePinParameters p).errors ↔
        ∃ s, p.imgSize = some s ∧ s < 100) ∧
      ("Image size should not exceed 2000 pixels for performance reasons" ∈ (validatePinParameters p).errors ↔
        ∃ s, p.imgSize = some s ∧ 2000 < s) ∧
      ("Image size must be an integer" ∈ (validatePinParameters p).errors ↔
        ∃ s, p.imgSize = some s ∧ s.isInt = false))
    ∧ validatePinParameters ⟨none, none⟩ = ⟨true, []⟩ := by
  constructor
  · intro p
    obtain ⟨np, s⟩ := p
    cases np <;> cases s <;>
      simp only [validatePinParameters] <;>
      (try split_ifs) <;>
      simp_all [not_lt]
  · rfl

/-! ## Embedding of `src/lib/math/geometry.ts` -/

/-- `calculateDistance(p1, p2)` from `geometry.ts`: Euclidean distance of two
real-coordinate points (`Point`). -/
noncomputable def calculateDistance (p1 p2 : ℝ × ℝ) : ℝ :=
  Real.sqrt ((p2.1 - p1.1) * (p2.1 - p1.1) + (p2.2 - p1.2) * (p2.2 - p1.2))

/-- `calculatePinDistance(pin1, pin2)` from `geometry.ts`: Euclidean distance
of two pin coordinates (integer pairs). -/
noncomputable def calculatePinDistance (pin1 pin2 : ℤ × ℤ) : ℝ :=
  Real.sqrt (((pin2.1 - pin1.1 : ℤ) : ℝ) * ((pin2.1 - pin1.1 : ℤ) : ℝ) +
    ((pin2.2 - pin1.2 : ℤ) : ℝ) * ((pin2.2 - pin1.2 : ℤ) : ℝ))

/-- `calculatePinPositions(numberOfPins, center, radius)` from `geometry.ts`:
pin `i` at angle `2πi/numberOfPins`, coordinates floored. -/
noncomputable def calculatePinPositions (numberOfPins : ℕ) (center radius : ℝ) :
    List (ℤ × ℤ) :=
  (List.range numberOfPins).map (fun i : ℕ =>
    (⌊center + radius * Real.cos (2 * Real.pi * (i : ℝ) / (numberOfPins : ℝ))⌋,
     ⌊center + radius * Real.sin (2 * Real.pi * (i : ℝ) / (numberOfPins : ℝ))⌋))

/-- `calculatePins(params)` from `pinCalculation.ts`, with the two fields it
reads passed explicitly (the claims always supply both, so the
`DEFAULT_CONFIG` fallback is not exercised): `center = imgSize / 2`,
`radius = imgSize / 2 − 0.5`. -/
noncomputable def calculatePins (numberOfPins : ℕ) (imgSize : ℤ) : List (ℤ × ℤ) :=
  calculatePinPositions numberOfPins ((imgSize : ℝ) / 2) ((imgSize : ℝ) / 2 - 0.5)

/-! ## Embedding of `src/lib/math/interpolation.ts` -/

/-- `linspace(start, stop, num)` from `interpolation.ts`, with `num` always
supplied (every caller in the repository passes it, so the `undefined`
default branch is not modelled): fewer than 2 samples give `[start]` or `[]`;
otherwise `num` samples `⌊start + step·i⌋` with `step = (stop − start)/(num − 1)`. -/
def linspace (start stop : ℚ) (num : ℤ) : List ℚ :=
  if num < 2 then (if num = 1 then [start] else [])
  else
    let step : ℚ := (stop - start) / ((num : ℚ) - 1)
    (List.range num.toNat).map (fun i : ℕ => ((⌊start + step * (i : ℚ)⌋ : ℤ) : ℚ))

/-- `linspace` specialised to the integer endpoints the line-cache builder
feeds it (pin coordinates are floored integers), returning the floored
samples as integers.  `linspace_intCast` proves it agrees with `linspace`. -/
def linspaceInt (start stop num : ℤ) : List ℤ :=
  if num < 2 then (if num = 1 then [start] else [])
  else
    let step : ℚ := ((stop : ℚ) - (start : ℚ)) / ((num : ℚ) - 1)
    (List.range num.toNat).map (fun i : ℕ => ⌊(start : ℚ) + step * (i : ℚ)⌋)

theorem linspace_intCast (start stop num : ℤ) :
    linspace (start : ℚ) (stop : ℚ) num = (linspaceInt start stop num).map (fun z : ℤ => (z : ℚ)) := by
  unfold linspace linspaceInt
  split_ifs with h1 h2
  · simp
  · simp
  · simp only [List.map_map]
    rfl

/-- `Math.floor(Math.sqrt(·))` on a nonnegative integer is `Int.sqrt`. -/
theorem int_sqrt_eq_floor_real_sqrt (m : ℤ) (hm : 0 ≤ m) :
    Int.sqrt m = ⌊Real.sqrt (m : ℝ)⌋ := by
  unfold Int.sqrt
  have hcast : ((m.toNat : ℕ) : ℝ) = (m : ℝ) := by
    exact_mod_cast congrArg (fun z : ℤ => (z : ℝ)) (Int.toNat_of_nonneg hm)
  symm
  rw [Int.floor_eq_iff]
  constructor
  · rw [Real.le_sqrt (by positivity) (by positivity)]
    have h := Nat.sqrt_le' m.toNat
    calc ((m.toNat.sqrt : ℤ) : ℝ) ^ 2 = ((m.toNat.sqrt ^ 2 : ℕ) : ℝ) := by push_cast; ring
    _ ≤ ((m.toNat : ℕ) : ℝ) := by exact_mod_cast h
    _ = (m : ℝ) := hcast
  · have hpos : (0 : ℝ) < ((m.toNat.sqrt : ℤ) : ℝ) + 1 := by positivity
    rw [Real.sqrt_lt' hpos]
    have h := Nat.lt_succ_sqrt' m.toNat
    calc (m : ℝ) = ((m.toNat : ℕ) : ℝ) := hcast.symm
    _ < ((m.toNat.sqrt.succ ^ 2 : ℕ) : ℝ) := by exact_mod_cast h
    _ = (((m.toNat.sqrt : ℤ) : ℝ) + 1) ^ 2 := by push_cast; ring

/-- `Math.floor(calculatePinDistance(p, q))` computed exactly on the integer
coordinates; this is the `distance` the line-cache builder records. -/
def pinDistanceFloor (pin1 pin2 : ℤ × ℤ) : ℤ :=
  Int.sqrt ((pin2.1 - pin1.1) * (pin2.1 - pin1.1) + (pin2.2 - pin1.2) * (pin2.2 - pin1.2))

theorem pinDistanceFloor_eq_floor (pin1 pin2 : ℤ × ℤ) :
    pinDistanceFloor pin1 pin2 = ⌊calculatePinDistance pin1 pin2⌋ := by
  unfold pinDistanceFloor calculatePinDistance
  rw [int_sqrt_eq_floor_real_sqrt _ (by nlinarith [sq_nonneg (pin2.1 - pin1.1), sq_nonneg (pin2.2 - pin1.2)])]
  congr 1
  push_cast
  ring_nf

/-! ## Embedding of `precalculateLineCache` (`src/lib/algorithms/lineOptimization.ts`)

The TypeScript cache is four arrays of size `numPins²`, indexed by
`a * numPins + b`; `x`/`y` slots start as `null`, `length` as `0`, `weight`
as `1`.  We model each array as a function from `ℤ` (the index arithmetic the
solver performs is on numbers) with the fill value as default; the code never
reads outside `[0, numPins²)`. -/

structure LineCache where
  x : ℤ → Option (List ℤ)
  y : ℤ → Option (List ℤ)
  length : ℤ → ℤ
  weight : ℤ → ℚ

/-- The freshly allocated cache: `x`/`y` filled with `null`, `length` with
`0`, `weight` with `1`. -/
def emptyLineCache : LineCache :=
  { x := fun _ => none, y := fun _ => none, length := fun _ => 0, weight := fun _ => 1 }

/-- The two flat indices (`indexAB`, `indexBA`) the loop body writes for the
pin pair `ab`. -/
def pairWritesKey (numPins : ℤ) (ab : ℕ × ℕ) (k : ℤ) : Prop :=
  k = (ab.1 : ℤ) * numPins + (ab.2 : ℤ) ∨ k = (ab.2 : ℤ) * numPins + (ab.1 : ℤ)

instance (numPins : ℤ) (ab : ℕ × ℕ) (k : ℤ) : Decidable (pairWritesKey numPins ab k) := by
  unfold pairWritesKey; infer_instance

/-- `distance = Math.floor(calculatePinDistance(pinCoords[a], pinCoords[b]))`
computed in the loop body (the indices are always in range; `getD`'s default
is never used). -/
def cachePairDist (pinCoords : List (ℤ × ℤ)) (ab : ℕ × ℕ) : ℤ :=
  pinDistanceFloor (pinCoords.getD ab.1 (0, 0)) (pinCoords.getD ab.2 (0, 0))

/-- `xs = linspace(x0, x1, distance)` computed in the loop body. -/
def cachePairXs (pinCoords : List (ℤ × ℤ)) (ab : ℕ × ℕ) : List ℤ :=
  linspaceInt (pinCoords.getD ab.1 (0, 0)).1 (pinCoords.getD ab.2 (0, 0)).1
    (cachePairDist pinCoords ab)

/-- `ys = linspace(y0, y1, distance)` computed in the loop body. -/
def cachePairYs (pinCoords : List (ℤ × ℤ)) (ab : ℕ × ℕ) : List ℤ :=
  linspaceInt (pinCoords.getD ab.1 (0, 0)).2 (pinCoords.getD ab.2 (0, 0)).2
    (cachePairDist pinCoords ab)

/-- The loop body of `precalculateLineCache` for one pin pair `ab = (a, b)`:
store `xs`, `ys` and `distance` under both `indexAB` and `indexBA`
(`weight` is never written). -/
def cacheWritePair (pinCoords : List (ℤ × ℤ)) (cache : LineCache) (ab : ℕ × ℕ) : LineCache :=
  { x := fun k => if pairWritesKey (pinCoords.length : ℤ) ab k
        then some (cachePairXs pinCoords ab) else cache.x k,
    y := fun k => if pairWritesKey (pinCoords.length : ℤ) ab k
        then some (cachePairYs pinCoords ab) else cache.y k,
    length := fun k => if pairWritesKey (pinCoords.length : ℤ) ab k
        then cachePairDist pinCoords ab else cache.length k,
    weight := cache.weight }

/-- The pin pairs visited by the nested loops of `precalculateLineCache`, in
order: `a` from `0` to `numPins − 1`, `b` from `a + minDistance` to
`numPins − 1` (for `minDistance ≥ 0`, the only case the claims concern,
filtering `b < numPins` by `a + minDistance ≤ b` is the code's loop). -/
def cachePairs (numPins : ℕ) (minDistance : ℤ) : List (ℕ × ℕ) :=
  (List.range numPins).flatMap (fun a : ℕ =>
    ((List.range numPins).filter (fun b : ℕ => (a : ℤ) + minDistance ≤ (b : ℤ))).map
      (fun b : ℕ => (a, b)))

/-- `precalculateLineCache(pinCoords, minDistance)` from
`lineOptimization.ts`: fold the loop body over all visited pairs, starting
from the freshly allocated cache. -/
def precalculateLineCache (pinCoords : List (ℤ × ℤ)) (minDistance : ℤ) : LineCache :=
  (cachePairs pinCoords.length minDistance).foldl (cacheWritePair pinCoords) emptyLineCache

theorem mem_cachePairs {numPins : ℕ} {minDistance : ℤ} {ab : ℕ × ℕ} :
    ab ∈ cachePairs numPins minDistance ↔
      ab.1 < numPins ∧ ab.2 < numPins ∧ (ab.1 : ℤ) + minDistance ≤ (ab.2 : ℤ) := by
  obtain ⟨a, b⟩ := ab
  simp only [cachePairs, List.mem_flatMap, List.mem_map, List.mem_filter, List.mem_range,
    Prod.mk.injEq, decide_eq_true_eq]
  constructor
  · rintro ⟨a', ha', b', ⟨hb', hle⟩, rfl, rfl⟩
    exact ⟨ha', hb', hle⟩
  · rintro ⟨ha, hb, hle⟩
    exact ⟨a, ha, b, ⟨hb, hle⟩, rfl, rfl⟩

/-- Flat cache keys decode uniquely when the second summand is a valid pin
index. -/
theorem cacheKey_inj {n a b a' b' : ℕ} (hb : b < n) (hb' : b' < n)
    (h : (a : ℤ) * (n : ℤ) + (b : ℤ) = (a' : ℤ) * (n : ℤ) + (b' : ℤ)) :
    a = a' ∧ b = b' := by
  have h' : a * n + b = a' * n + b' := by exact_mod_cast h
  have hmb : (a * n + b) % n = b := by
    rw [Nat.mul_comm, Nat.mul_add_mod]; exact Nat.mod_eq_of_lt hb
  have hmb' : (a' * n + b') % n = b' := by
    rw [Nat.mul_comm, Nat.mul_add_mod]; exact Nat.mod_eq_of_lt hb'
  have hbb : b = b' := by rw [← hmb, ← hmb', h']
  refine ⟨?_, hbb⟩
  have hn : 0 < n := lt_of_le_of_lt (Nat.zero_le b) hb
  have hmul : a * n = a' * n := by
    rw [hbb] at h'
    exact Nat.add_right_cancel h'
  exact Nat.eq_of_mul_eq_mul_right hn hmul

/-- Keys no visited pair writes keep their initial value through the fold. -/
theorem foldl_cacheWrite_untouched (pins : List (ℤ × ℤ)) (L : List (ℕ × ℕ)) (k : ℤ) :
    ∀ c : LineCache, (∀ ab ∈ L, ¬ pairWritesKey (pins.length : ℤ) ab k) →
      (L.foldl (cacheWritePair pins) c).x k = c.x k ∧
      (L.foldl (cacheWritePair pins) c).y k = c.y k ∧
      (L.foldl (cacheWritePair pins) c).length k = c.length k := by
  induction L with
  | nil => exact fun c _ => ⟨rfl, rfl, rfl⟩
  | cons ab L ih =>
    intro c h
    have hab : ¬ pairWritesKey (pins.length : ℤ) ab k := h ab (List.mem_cons_self ab L)
    have h' : ∀ ab' ∈ L, ¬ pairWritesKey (pins.length : ℤ) ab' k :=
      fun ab' hm => h ab' (List.mem_cons_of_mem _ hm)
    have hrec := ih (cacheWritePair pins c ab) h'
    rw [List.foldl_cons]
    refine ⟨hrec.1.trans ?_, hrec.2.1.trans ?_, hrec.2.2.trans ?_⟩ <;>
      simp [cacheWritePair, hab]

/-- The fold stores the loop-body values at a key as soon as some visited
pair writes it and every visited pair writing it stores the same values. -/
theorem foldl_cacheWrite_value (pins : List (ℤ × ℤ)) (L : List (ℕ × ℕ)) (k : ℤ)
    (xs ys : List ℤ) (d : ℤ) :
    ∀ c : LineCache,
      (∀ ab ∈ L, pairWritesKey (pins.length : ℤ) ab k →
        cachePairXs pins ab = xs ∧ cachePairYs pins ab = ys ∧ cachePairDist pins ab = d) →
      (∃ ab ∈ L, pairWritesKey (pins.length : ℤ) ab k) →
      (L.foldl (cacheWritePair pins) c).x k = some xs ∧
      (L.foldl (cacheWritePair pins) c).y k = some ys ∧
      (L.foldl (cacheWritePair pins) c).length k = d := by
  induction L with
  | nil => rintro c _ ⟨_, h, _⟩; exact absurd h (List.not_mem_nil _)
  | cons ab L ih =>
    intro c hval hex
    rw [List.foldl_cons]
    by_cases hexL : ∃ ab' ∈ L, pairWritesKey (pins.length : ℤ) ab' k
    · exact ih (cacheWritePair pins c ab)
        (fun ab' hm => hval ab' (List.mem_cons_of_mem _ hm)) hexL
    · obtain ⟨ab0, hab0mem, hab0w⟩ := hex
      have hab0 : ab0 = ab := by
        rcases List.mem_cons.mp hab0mem with h | h
        · exact h
        · exact absurd ⟨ab0, h, hab0w⟩ hexL
      subst hab0
      have hnone : ∀ ab' ∈ L, ¬ pairWritesKey (pins.length : ℤ) ab' k :=
        fun ab' hm hw => hexL ⟨ab', hm, hw⟩
      have hrest := foldl_cacheWrite_untouched pins L k (cacheWritePair pins c ab0) hnone
      obtain ⟨hx, hy, hd⟩ := hval ab0 (List.mem_cons_self ab0 L) hab0w
      refine ⟨hrest.1.trans ?_, hrest.2.1.trans ?_, hrest.2.2.trans ?_⟩ <;>
        simp [cacheWritePair, hab0w, hx, hy, hd]

/-- Any visited pair writing the flat key `a·n + b` (with `a, b` valid pin
indices) is `(a, b)` or `(b, a)`. -/
theorem toucher_cases (pins : List (ℤ × ℤ)) (md : ℤ) (a b : ℕ)
    (ha : a < pins.length) (hb : b < pins.length) :
    ∀ ab' ∈ cachePairs pins.length md,
      pairWritesKey (pins.length : ℤ) ab' ((a : ℤ) * (pins.length : ℤ) + (b : ℤ)) →
        ab' = (a, b) ∨ ab' = (b, a) := by
  rintro ⟨a', b'⟩ hmem (h | h)
  · obtain ⟨_, hb', _⟩ := mem_cachePairs.mp hmem
    obtain ⟨rfl, rfl⟩ := cacheKey_inj hb hb' h
    exact Or.inl rfl
  · obtain ⟨ha', _, _⟩ := mem_cachePairs.mp hmem
    obtain ⟨rfl, rfl⟩ := cacheKey_inj hb ha' h
    exact Or.inr rfl

/-- A pair at direct index distance `≥ minDistance` (with `a < b`) has its
line stored under both flat keys, with the loop-body values. -/
theorem precalc_entry_of_le (pins : List (ℤ × ℤ)) (md : ℤ) (a b : ℕ)
    (hmd : 1 ≤ md) (ha : a < pins.length) (hb : b < pins.length)
    (hab : (a : ℤ) + md ≤ (b : ℤ)) :
    ((precalculateLineCache pins md).x ((a : ℤ) * (pins.length : ℤ) + (b : ℤ))
        = some (cachePairXs pins (a, b)) ∧
      (precalculateLineCache pins md).y ((a : ℤ) * (pins.length : ℤ) + (b : ℤ))
        = some (cachePairYs pins (a, b)) ∧
      (precalculateLineCache pins md).length ((a : ℤ) * (pins.length : ℤ) + (b : ℤ))
        = cachePairDist pins (a, b)) ∧
    ((precalculateLineCache pins md).x ((b : ℤ) * (pins.length : ℤ) + (a : ℤ))
        = some (cachePairXs pins (a, b)) ∧
      (precalculateLineCache pins md).y ((b : ℤ) * (pins.length : ℤ) + (a : ℤ))
        = some (cachePairYs pins (a, b)) ∧
      (precalculateLineCache pins md).length ((b : ℤ) * (pins.length : ℤ) + (a : ℤ))
        = cachePairDist pins (a, b)) := by
  have hmemab : (a, b) ∈ cachePairs pins.length md := mem_cachePairs.mpr ⟨ha, hb, hab⟩
  have hnotba : ((b, a) : ℕ × ℕ) ∉ cachePairs pins.length md := by
    intro hmem
    obtain ⟨_, _, hle⟩ := mem_cachePairs.mp hmem
    simp only at hle
    omega
  have hval : ∀ k : ℤ, ∀ ab' ∈ cachePairs pins.length md,
      pairWritesKey (pins.length : ℤ) ab' k →
      (ab' = (a, b) ∨ ab' = (b, a)) →
      cachePairXs pins ab' = cachePairXs pins (a, b) ∧
        cachePairYs pins ab' = cachePairYs pins (a, b) ∧
        cachePairDist pins ab' = cachePairDist pins (a, b) := by
    rintro k ab' hmem _ (rfl | rfl)
    · exact ⟨rfl, rfl, rfl⟩
    · exact absurd hmem hnotba
  constructor
  · exact foldl_cacheWrite_value pins _ _ _ _ _ emptyLineCache
      (fun ab' hm hw => hval _ ab' hm hw (toucher_cases pins md a b ha hb ab' hm hw))
      ⟨(a, b), hmemab, Or.inl rfl⟩
  · exact foldl_cacheWrite_value pins _ _ _ _ _ emptyLineCache
      (fun ab' hm hw => hval _ ab' hm hw (toucher_cases pins md b a hb ha ab' hm hw).symm)
      ⟨(a, b), hmemab, Or.inr rfl⟩

/-- A pair at direct index distance `< minDistance` has no entry: its flat
key is never written. -/
theorem precalc_entry_none (pins : List (ℤ × ℤ)) (md : ℤ) (a b : ℕ)
    (ha : a < pins.length) (hb : b < pins.length)
    (habs : |(b : ℤ) - (a : ℤ)| < md) :
    (precalculateLineCache pins md).x ((a : ℤ) * (pins.length : ℤ) + (b : ℤ)) = none ∧
    (precalculateLineCache pins md).y ((a : ℤ) * (pins.length : ℤ) + (b : ℤ)) = none := by
  have huntouched : ∀ ab' ∈ cachePairs pins.length md,
      ¬ pairWritesKey (pins.length : ℤ) ab' ((a : ℤ) * (pins.length : ℤ) + (b : ℤ)) := by
    intro ab' hmem hw
    obtain ⟨_, _, hle⟩ := mem_cachePairs.mp hmem
    rcases toucher_cases pins md a b ha hb ab' hmem hw with rfl | rfl <;>
      (simp only at hle; rw [abs_lt] at habs; omega)
  have h := foldl_cacheWrite_untouched pins _ _ emptyLineCache huntouched
  exact ⟨h.1, h.2.1⟩

/-! ## C3: cache admissibility -/

/-- C3 counterexample: the claim states an entry is present iff the ring
distance `min(|b−a|, n_pins − |b−a|)` is at least `min_distance`, and in
particular that pairs whose wrap-around arc is shorter than `min_distance`
are absent.  With 10 pins and `min_distance = 2`, the pair `{0, 9}` has ring
distance `1 < 2`, yet its cache entry is present: the builder only compares
the direct index difference `b − a = 9`. -/
theorem precalculateLineCache_wraparound_cex :
    (((precalculateLineCache (List.replicate 10 ((0 : ℤ), (0 : ℤ))) 2).x
        ((0 : ℤ) * 10 + 9)).isSome = true) ∧
      calculateMinPinDistance 0 9 10 = 1 ∧ ¬ (2 : ℤ) ≤ calculateMinPinDistance 0 9 10 := by
  refine ⟨?_, by decide, by decide⟩
  have h := (precalc_entry_of_le (List.replicate 10 ((0 : ℤ), (0 : ℤ))) 2 0 9
    (by norm_num) (by simp) (by simp) (by norm_num)).1.1
  simpa using congrArg Option.isSome h

/-- C3 (amended): for `min_distance ≥ 1` and valid pin indices `a, b`, the
cache built by `precalculateLineCache` has a present (non-`null`) entry for
the pair `(a, b)` if and only if the direct index distance `|b − a|` is at
least `min_distance`; the wrap-around arc `n_pins − |b − a|` is not
consulted. -/
theorem precalculateLineCache_entry_iff (pins : List (ℤ × ℤ)) (md : ℤ) (a b : ℕ)
    (hmd : 1 ≤ md) (ha : a < pins.length) (hb : b < pins.length) :
    (((precalculateLineCache pins md).x
        ((a : ℤ) * (pins.length : ℤ) + (b : ℤ))).isSome = true ↔
      md ≤ |(b : ℤ) - (a : ℤ)|) ∧
    (((precalculateLineCache pins md).y
        ((a : ℤ) * (pins.length : ℤ) + (b : ℤ))).isSome = true ↔
      md ≤ |(b : ℤ) - (a : ℤ)|) := by
  by_cases h : md ≤ |(b : ℤ) - (a : ℤ)|
  · rcases le_or_lt a b with hab | hab
    · have hle : (a : ℤ) + md ≤ (b : ℤ) := by
        rw [abs_of_nonneg (by omega : (0 : ℤ) ≤ (b : ℤ) - (a : ℤ))] at h
        omega
      have hentry := (precalc_entry_of_le pins md a b hmd ha hb hle).1
      rw [hentry.1, hentry.2.1]
      simp [h]
    · have hle : (b : ℤ) + md ≤ (a : ℤ) := by
        rw [abs_of_nonpos (by omega)] at h
        omega
      have hentry := (precalc_entry_of_le pins md b a hmd hb ha hle).2
      rw [hentry.1, hentry.2.1]
      simp [h]
  · have hnone := precalc_entry_none pins md a b ha hb (not_le.mp h)
    rw [hnone.1, hnone.2]
    simp [h]

/-- C3 witness: the amended characterisation applied to three collinear pins
with `min_distance = 1` at the pair `(0, 2)`. -/
theorem precalculateLineCache_entry_iff_witness :
    (((precalculateLineCache [((0 : ℤ), (0 : ℤ)), (1, 0), (2, 0)] 1).x
        ((0 : ℤ) * (([((0 : ℤ), (0 : ℤ)), (1, 0), (2, 0)] : List (ℤ × ℤ)).length : ℤ) +
          (2 : ℤ))).isSome = true ↔ (1 : ℤ) ≤ |(2 : ℤ) - (0 : ℤ)|) ∧
    (((precalculateLineCache [((0 : ℤ), (0 : ℤ)), (1, 0), (2, 0)] 1).y
        ((0 : ℤ) * (([((0 : ℤ), (0 : ℤ)), (1, 0), (2, 0)] : List (ℤ × ℤ)).length : ℤ) +
          (2 : ℤ))).isSome = true ↔ (1 : ℤ) ≤ |(2 : ℤ) - (0 : ℤ)|) :=
  precalculateLineCache_entry_iff [((0 : ℤ), (0 : ℤ)), (1, 0), (2, 0)] 1 0 2
    (by norm_num) (by norm_num) (by norm_num)

/-! ## C8: line discretisation -/

/-- C8: the discretisation of a pin pair records `d = ⌊euclid(pin_a, pin_b)⌋`
as both the line length and the `linspace` sample count, and `linspace`
returns: for `d ≥ 2` exactly `d` values whose `i`-th element is
`⌊start + i·(stop − start)/(d − 1)⌋`; for `d = 1` the list `[start]`; for
`d < 1` the empty list — the `d − 1` denominator is only formed when `d ≥ 2`.
The cached integer lists are exactly the `linspace` samples
(`linspace_intCast`). -/
theorem linspace_discretisation :
    (∀ p q : ℤ × ℤ, pinDistanceFloor p q = ⌊calculatePinDistance p q⌋) ∧
    (∀ (pins : List (ℤ × ℤ)) (md : ℤ) (a b : ℕ),
      1 ≤ md → a < pins.length → b < pins.length → (a : ℤ) + md ≤ (b : ℤ) →
      (precalculateLineCache pins md).length ((a : ℤ) * (pins.length : ℤ) + (b : ℤ)) =
          pinDistanceFloor (pins.getD a (0, 0)) (pins.getD b (0, 0)) ∧
        (precalculateLineCache pins md).x ((a : ℤ) * (pins.length : ℤ) + (b : ℤ)) =
          some (linspaceInt (pins.getD a (0, 0)).1 (pins.getD b (0, 0)).1
            (pinDistanceFloor (pins.getD a (0, 0)) (pins.getD b (0, 0)))) ∧
        (precalculateLineCache pins md).y ((a : ℤ) * (pins.length : ℤ) + (b : ℤ)) =
          some (linspaceInt (pins.getD a (0, 0)).2 (pins.getD b (0, 0)).2
            (pinDistanceFloor (pins.getD a (0, 0)) (pins.getD b (0, 0))))) ∧
    (∀ (s e : ℚ) (d : ℤ), 2 ≤ d →
      (linspace s e d).length = d.toNat ∧
      ∀ i : ℕ, (i : ℤ) < d →
        (linspace s e d).getD i 0 = ((⌊s + (i : ℚ) * (e - s) / ((d : ℚ) - 1)⌋ : ℤ) : ℚ)) ∧
    (∀ s e : ℚ, linspace s e 1 = [s]) ∧
    (∀ (s e : ℚ) (d : ℤ), d < 1 → linspace s e d = []) ∧
    (∀ s e num : ℤ, linspace (s : ℚ) (e : ℚ) num =
      (linspaceInt s e num).map (fun z : ℤ => (z : ℚ))) := by
  refine ⟨pinDistanceFloor_eq_floor, ?_, ?_, ?_, ?_, linspace_intCast⟩
  · intro pins md a b hmd ha hb hle
    have h := (precalc_entry_of_le pins md a b hmd ha hb hle).1
    exact ⟨h.2.2, h.1, h.2.1⟩
  · intro s e d hd
    have hneg : ¬ d < 2 := not_lt.mpr hd
    constructor
    · unfold linspace
      rw [if_neg hneg]
      simp
    · intro i hi
      have hi' : i < d.toNat := by omega
      unfold linspace
      rw [if_neg hneg]
      rw [List.getD_eq_getElem?_getD, List.getElem?_map, List.getElem?_range hi']
      simp only [Option.map_some', Option.getD_some]
      congr 2
      field_simp
      ring
  · intro s e
    rfl
  · intro s e d hd
    have h1 : d < 2 := by omega
    have h2 : ¬ d = 1 := by omega
    simp [linspace, h1, h2]

/-- C8 witness: the pair `((0,0), (3,4))` has `d = 5`, and the fourth sample
of `linspace 0 3 5` is `⌊0 + 3·3/4⌋ = 2`. -/
theorem linspace_discretisation_witness :
    (linspace (0 : ℚ) 3 5).getD 3 0 = ((⌊(0 : ℚ) + (3 : ℚ) * ((3 : ℚ) - 0) / ((5 : ℚ) - 1)⌋ : ℤ) : ℚ) :=
  ((linspace_discretisation.2.2.1 0 3 5 (by norm_num)).2 3 (by norm_num))

/-! ## Embedding of `calculateLineError` and `applyLineMask`
(`src/lib/algorithms/lineOptimization.ts`)

The loops run `i` over `xs.length` reading `ys[i]`; we iterate over
`xs.zip ys`.  (If `ys` were shorter, the JS code would read `undefined`,
produce a `NaN` index and skip it via the bounds check — the same as
stopping at the shorter length; the cached lists always have equal length.) -/

/-- Loop body of `calculateLineError` for one sample `(x, y)`: add
`errorMatrix[y·imgWidth + x]` when the flat index is in bounds, else skip. -/
def lineErrStep (errorMatrix : List ℚ) (imgWidth : ℤ) (totalError : ℚ) (p : ℤ × ℤ) : ℚ :=
  let pixelIndex := p.2 * imgWidth + p.1
  if 0 ≤ pixelIndex ∧ pixelIndex < (errorMatrix.length : ℤ) then
    totalError + errorMatrix.getD pixelIndex.toNat 0
  else totalError

/-- `calculateLineError(errorMatrix, lineCoords, imgWidth)` from
`lineOptimization.ts`. -/
def calculateLineError (errorMatrix : List ℚ) (xs ys : List ℤ) (imgWidth : ℤ) : ℚ :=
  (xs.zip ys).foldl (lineErrStep errorMatrix imgWidth) 0

/-- The sequential clamp of `applyLineMask`'s loop body:
`newValue = v − lineWeight; if (<0) 0; if (>255) 255`. -/
def clampStep (lineWeight v : ℚ) : ℚ :=
  let newValue := v - lineWeight
  let newValue := if newValue < 0 then 0 else newValue
  if newValue > 255 then 255 else newValue

/-- Loop body of `applyLineMask` for one sample `(x, y)`: clamp-update the
matrix element at `y·imgWidth + x` when the flat index is in bounds, else
skip. -/
def maskStep (lineWeight : ℚ) (imgWidth : ℤ) (errorMatrix : List ℚ) (p : ℤ × ℤ) : List ℚ :=
  let pixelIndex := p.2 * imgWidth + p.1
  if 0 ≤ pixelIndex ∧ pixelIndex < (errorMatrix.length : ℤ) then
    errorMatrix.set pixelIndex.toNat (clampStep lineWeight (errorMatrix.getD pixelIndex.toNat 0))
  else errorMatrix

/-- `applyLineMask(errorMatrix, lineCoords, lineWeight, imgWidth)` from
`lineOptimization.ts` (the mutated buffer is returned). -/
def applyLineMask (errorMatrix : List ℚ) (xs ys : List ℤ) (lineWeight : ℚ) (imgWidth : ℤ) :
    List ℚ :=
  (xs.zip ys).foldl (maskStep lineWeight imgWidth) errorMatrix

/-- A guarded fold is the fold of the unguarded body over the filtered list. -/
theorem foldl_guard {α β : Type} (cond : β → Bool) (f : α → β → α) :
    ∀ (l : List β) (z : α),
      l.foldl (fun a b => if cond b then f a b else a) z = (l.filter cond).foldl f z := by
  intro l
  induction l with
  | nil => intro z; rfl
  | cons b l ih =>
    intro z
    rw [List.foldl_cons, List.filter_cons]
    by_cases h : cond b = true
    · simp only [if_pos h, List.foldl_cons]
      exact ih (f z b)
    · simp only [if_neg h]
      exact ih z

/-- `applyLineMask` never changes the matrix size. -/
theorem applyLineMask_length (errorMatrix : List ℚ) (xs ys : List ℤ)
    (lineWeight : ℚ) (imgWidth : ℤ) :
    (applyLineMask errorMatrix xs ys lineWeight imgWidth).length = errorMatrix.length := by
  unfold applyLineMask
  generalize xs.zip ys = l
  induction l generalizing errorMatrix with
  | nil => rfl
  | cons p l ih =>
    rw [List.foldl_cons]
    rw [ih (maskStep lineWeight imgWidth errorMatrix p)]
    simp only [maskStep]
    split_ifs <;> simp

/-- The guard of both loop bodies, as a Boolean predicate on a sample, for a
matrix of length `len`. -/
def sampleInRange (len : ℕ) (imgWidth : ℤ) (p : ℤ × ℤ) : Bool :=
  decide (0 ≤ p.2 * imgWidth + p.1 ∧ p.2 * imgWidth + p.1 < (len : ℤ))

theorem lineErrStep_eq_guard (m : List ℚ) (w : ℤ) :
    lineErrStep m w = fun total p =>
      if sampleInRange m.length w p then total + m.getD (p.2 * w + p.1).toNat 0 else total := by
  funext total p
  unfold lineErrStep sampleInRange
  by_cases h : 0 ≤ p.2 * w + p.1 ∧ p.2 * w + p.1 < (m.length : ℤ)
  · rw [if_pos h, if_pos (decide_eq_true h)]
  · rw [if_neg h, if_neg (by simp [h])]

theorem maskStep_eq_guard (lw : ℚ) (w : ℤ) (m : List ℚ) (p : ℤ × ℤ) :
    maskStep lw w m p =
      if sampleInRange m.length w p then
        m.set (p.2 * w + p.1).toNat (clampStep lw (m.getD (p.2 * w + p.1).toNat 0))
      else m := by
  unfold maskStep sampleInRange
  by_cases h : 0 ≤ p.2 * w + p.1 ∧ p.2 * w + p.1 < (m.length : ℤ)
  · rw [if_pos h, if_pos (decide_eq_true h)]
  · rw [if_neg h, if_neg (by simp [h])]

/-- The mask fold is the unguarded fold over the in-range samples (the
bounds check only skips; the predicate is stable because `set` preserves
length). -/
theorem foldl_maskStep_filter (lw : ℚ) (w : ℤ) :
    ∀ (l : List (ℤ × ℤ)) (m : List ℚ),
      l.foldl (maskStep lw w) m =
        (l.filter (sampleInRange m.length w)).foldl
          (fun m' p => m'.set (p.2 * w + p.1).toNat
            (clampStep lw (m'.getD (p.2 * w + p.1).toNat 0))) m := by
  intro l
  induction l with
  | nil => intro m; rfl
  | cons p l ih =>
    intro m
    rw [List.foldl_cons, List.filter_cons]
    by_cases h : sampleInRange m.length w p = true
    · rw [if_pos h, List.foldl_cons]
      rw [maskStep_eq_guard, if_pos h]
      have hlen : (m.set (p.2 * w + p.1).toNat
          (clampStep lw (m.getD (p.2 * w + p.1).toNat 0))).length = m.length :=
        List.length_set m _ _
      rw [ih, hlen]
    · rw [if_neg h]
      rw [maskStep_eq_guard, if_neg h]
      exact ih m

/-- C6: both pixel loops bounds-check every computed flat index against the
matrix length and silently skip out-of-range samples: `applyLineMask`
preserves the matrix length, and both functions compute exactly the fold of
their unguarded bodies over the in-range samples (so out-of-range
coordinates are never read or written, and no error is raised — the
functions are total). -/
theorem pixel_bounds_check_safety :
    (∀ (m : List ℚ) (xs ys : List ℤ) (lw : ℚ) (w : ℤ),
      (applyLineMask m xs ys lw w).length = m.length) ∧
    (∀ (m : List ℚ) (xs ys : List ℤ) (w : ℤ),
      calculateLineError m xs ys w =
        ((xs.zip ys).filter (sampleInRange m.length w)).foldl
          (fun total p => total + m.getD (p.2 * w + p.1).toNat 0) 0) ∧
    (∀ (m : List ℚ) (xs ys : List ℤ) (lw : ℚ) (w : ℤ),
      applyLineMask m xs ys lw w =
        ((xs.zip ys).filter (sampleInRange m.length w)).foldl
          (fun m' p => m'.set (p.2 * w + p.1).toNat
            (clampStep lw (m'.getD (p.2 * w + p.1).toNat 0))) m) := by
  refine ⟨applyLineMask_length, ?_, ?_⟩
  · intro m xs ys w
    unfold calculateLineError
    rw [lineErrStep_eq_guard]
    exact foldl_guard (sampleInRange m.length w) _ (xs.zip ys) 0
  · intro m xs ys lw w
    exact foldl_maskStep_filter lw w (xs.zip ys) m

/-- The clamp always lands in `[0, 255]`, whatever the inputs. -/
theorem clampStep_mem_range (lw v : ℚ) : 0 ≤ clampStep lw v ∧ clampStep lw v ≤ 255 := by
  unfold clampStep
  dsimp only
  split_ifs <;> constructor <;> linarith

/-- Elementwise effect of the mask fold: the element at flat index `j`
receives one clamp-update per sample that addresses `j`, and is untouched
otherwise. -/
theorem foldl_maskStep_getD (lw : ℚ) (w : ℤ) :
    ∀ (l : List (ℤ × ℤ)) (m : List ℚ) (j : ℕ), j < m.length →
      (l.foldl (maskStep lw w) m).getD j 0 =
        (clampStep lw)^[l.countP (fun p => decide (p.2 * w + p.1 = (j : ℤ)))]
          (m.getD j 0) := by
  intro l
  induction l with
  | nil => intro m j _; rfl
  | cons p l ih =>
    intro m j hj
    rw [List.foldl_cons, List.countP_cons]
    by_cases hhit : p.2 * w + p.1 = (j : ℤ)
    · have hguard : sampleInRange m.length w p = true := by
        unfold sampleInRange
        rw [decide_eq_true_eq]
        omega
      have hstep : maskStep lw w m p = m.set j (clampStep lw (m.getD j 0)) := by
        rw [maskStep_eq_guard, if_pos hguard, hhit]
        simp
      rw [hstep]
      have hlen : j < (m.set j (clampStep lw (m.getD j 0))).length := by
        rw [List.length_set]; exact hj
      rw [ih _ j hlen]
      have hget : (m.set j (clampStep lw (m.getD j 0))).getD j 0 =
          clampStep lw (m.getD j 0) := by
        rw [List.getD_eq_getElem?_getD, List.getElem?_set_self (by rwa [List.length_set] at hlen)]
        rfl
      rw [hget, decide_eq_true hhit]
      simp only [if_true]
      rw [Function.iterate_succ_apply]
    · have hcount : (decide (p.2 * w + p.1 = (j : ℤ)) : Bool) = false := by
        simp [hhit]
      rw [hcount]
      simp only [Bool.false_eq_true, if_false, Nat.add_zero]
      rw [maskStep_eq_guard]
      by_cases hguard : sampleInRange m.length w p = true
      · rw [if_pos hguard]
        have hlen : j < (m.set (p.2 * w + p.1).toNat
            (clampStep lw (m.getD (p.2 * w + p.1).toNat 0))).length := by
          rw [List.length_set]; exact hj
        rw [ih _ j hlen]
        have hne : (p.2 * w + p.1).toNat ≠ j := by
          unfold sampleInRange at hguard
          rw [decide_eq_true_eq] at hguard
          omega
        have hget : (m.set (p.2 * w + p.1).toNat
            (clampStep lw (m.getD (p.2 * w + p.1).toNat 0))).getD j 0 = m.getD j 0 := by
          rw [List.getD_eq_getElem?_getD, List.getElem?_set_ne hne, ← List.getD_eq_getElem?_getD]
        rw [hget]
      · rw [if_neg hguard]
        exact ih m j hj

/-- Every element of the mask fold's result is an original element or a
clamped value. -/
theorem foldl_maskStep_mem_range (lw : ℚ) (w : ℤ) :
    ∀ (l : List (ℤ × ℤ)) (m : List ℚ), (∀ v ∈ m, 0 ≤ v ∧ v ≤ 255) →
      ∀ v ∈ l.foldl (maskStep lw w) m, 0 ≤ v ∧ v ≤ 255 := by
  intro l
  induction l with
  | nil => intro m hm; exact hm
  | cons p l ih =>
    intro m hm
    rw [List.foldl_cons]
    apply ih
    intro v hv
    rw [maskStep_eq_guard] at hv
    split_ifs at hv with hg
    · rcases List.mem_or_eq_of_mem_set hv with h | h
      · exact hm v h
      · rw [h]; exact clampStep_mem_range lw _
    · exact hm v hv

/-- C5 counterexample: the claim states `applyLineMask` sets each addressed
element to `clamp(old_value − lineWeight, 0, 255)` (one clamped subtraction
from its pre-call value).  A line whose coordinate lists address the same
flat index twice — here `(0,0)` twice with weight 1 on the one-element
matrix `[255]` — subtracts twice: the element ends at `253`, not at
`clamp(255 − 1) = 254`. -/
theorem applyLineMask_duplicate_cex :
    applyLineMask [(255 : ℚ)] [0, 0] [0, 0] 1 1 = [253] ∧
    clampStep 1 (255 : ℚ) = 254 ∧
    (applyLineMask [(255 : ℚ)] [0, 0] [0, 0] 1 1).getD 0 0 ≠
      clampStep 1 (([(255 : ℚ)]).getD 0 0) := by
  refine ⟨?_, ?_, ?_⟩ <;>
    norm_num [applyLineMask, maskStep, clampStep, List.zip]

/-! ## Embedding of `findBestNextPin` (`src/lib/algorithms/lineOptimization.ts`) -/

/-- The fields of `StringArtParameters` (`types/stringArt.ts`) the solver
reads.  Pin counts and distances are integers; `numberOfLines` bounds the
main loop and is used as a natural number; `hoopDiameter` only scales the
physical thread length. -/
structure StringArtParameters where
  numberOfPins : ℤ
  minDistance : ℤ
  numberOfLines : ℕ
  lineWeight : ℚ
  imgSize : ℤ
  hoopDiameter : ℚ

/-- The `{bestPin, error}` record returned by `findBestNextPin`. -/
structure BestPinResult where
  bestPin : ℤ
  error : ℚ
deriving DecidableEq

/-- Body of the candidate scan for one `testPin`: look up the cached line at
`testPin·numberOfPins + currentPin`; when both coordinate lists are present,
score the line and keep it if its score strictly exceeds the running
maximum (`maxError`, `bestPin`) accumulator. -/
def bestPinStep (currentPin : ℤ) (errorMatrix : List ℚ) (lineCache : LineCache)
    (params : StringArtParameters) (acc : ℤ × ℚ) (testPin : ℤ) : ℤ × ℚ :=
  let cacheIndex := testPin * params.numberOfPins + currentPin
  match lineCache.x cacheIndex, lineCache.y cacheIndex with
  | some xs, some ys =>
    let lineError := calculateLineError errorMatrix xs ys params.imgSize *
      lineCache.weight cacheIndex
    if lineError > acc.2 then (testPin, lineError) else acc
  | _, _ => acc

/-- `findBestNextPin(currentPin, errorMatrix, lineCache, lastPins, params)`
from `lineOptimization.ts`: scan the valid target pins with
`maxError = −1, bestPin = −1`. -/
def findBestNextPin (currentPin : ℤ) (errorMatrix : List ℚ) (lineCache : LineCache)
    (lastPins : List ℤ) (params : StringArtParameters) : BestPinResult :=
  let validPins := getValidTargetPins currentPin params.minDistance params.numberOfPins lastPins
  let r := validPins.foldl (bestPinStep currentPin errorMatrix lineCache params)
    ((-1 : ℤ), (-1 : ℚ))
  ⟨r.1, r.2⟩

/-- The JS truthiness test `xs && ys` on the two cached coordinate slots. -/
def hasCacheEntry (currentPin : ℤ) (lineCache : LineCache) (params : StringArtParameters)
    (testPin : ℤ) : Bool :=
  (lineCache.x (testPin * params.numberOfPins + currentPin)).isSome &&
    (lineCache.y (testPin * params.numberOfPins + currentPin)).isSome

/-- The score of a candidate with a present cache entry: the residual sum
over the cached line of the pixels, times the cached per-line weight. -/
def candidateScore (currentPin : ℤ) (errorMatrix : List ℚ) (lineCache : LineCache)
    (params : StringArtParameters) (testPin : ℤ) : ℚ :=
  let cacheIndex := testPin * params.numberOfPins + currentPin
  match lineCache.x cacheIndex, lineCache.y cacheIndex with
  | some xs, some ys =>
    calculateLineError errorMatrix xs ys params.imgSize * lineCache.weight cacheIndex
  | _, _ => 0

theorem bestPinStep_eq_guard (currentPin : ℤ) (errorMatrix : List ℚ) (lineCache : LineCache)
    (params : StringArtParameters) :
    bestPinStep currentPin errorMatrix lineCache params = fun acc testPin =>
      if hasCacheEntry currentPin lineCache params testPin then
        (if candidateScore currentPin errorMatrix lineCache params testPin > acc.2 then
          (testPin, candidateScore currentPin errorMatrix lineCache params testPin) else acc)
      else acc := by
  funext acc testPin
  unfold bestPinStep hasCacheEntry candidateScore
  cases hx : lineCache.x (testPin * params.numberOfPins + currentPin) <;>
    cases hy : lineCache.y (testPin * params.numberOfPins + currentPin) <;>
    simp [hx, hy]

/-- A strict-`>` maximum scan never moves off an accumulator that already
dominates the list. -/
theorem foldl_max_const (f : ℤ → ℚ) :
    ∀ (l : List ℤ) (acc : ℤ × ℚ), (∀ p ∈ l, f p ≤ acc.2) →
      l.foldl (fun a p => if f p > a.2 then (p, f p) else a) acc = acc := by
  intro l
  induction l with
  | nil => intro acc _; rfl
  | cons p l ih =>
    intro acc h
    rw [List.foldl_cons, if_neg (not_lt.mpr (h p (List.mem_cons_self p l)))]
    exact ih acc (fun q hq => h q (List.mem_cons_of_mem _ hq))

/-- A strict-`>` maximum scan started below some list element returns the
earliest element that strictly dominates everything before it and weakly
dominates everything after it. -/
theorem foldl_max_found (f : ℤ → ℚ) :
    ∀ (l : List ℤ) (acc : ℤ × ℚ), (∃ p ∈ l, acc.2 < f p) →
      ∃ l1 best l2, l = l1 ++ best :: l2 ∧
        l.foldl (fun a p => if f p > a.2 then (p, f p) else a) acc = (best, f best) ∧
        (∀ p ∈ l1, f p < f best) ∧ (∀ p ∈ l2, f p ≤ f best) ∧ acc.2 < f best := by
  intro l
  induction l with
  | nil => rintro acc ⟨p, hp, _⟩; exact absurd hp (List.not_mem_nil p)
  | cons p l ih =>
    intro acc hex
    rw [List.foldl_cons]
    by_cases hp : acc.2 < f p
    · rw [if_pos hp]
      by_cases hex' : ∃ q ∈ l, f p < f q
      · obtain ⟨l1, best, l2, heq, hfold, h1, h2, hlt⟩ := ih (p, f p) hex'
        exact ⟨p :: l1, best, l2, by rw [heq, List.cons_append], hfold,
          fun q hq => (List.mem_cons.mp hq).elim (fun h => h ▸ hlt) (h1 q),
          h2, hp.trans hlt⟩
      · push_neg at hex'
        rw [foldl_max_const f l (p, f p) hex']
        exact ⟨[], p, l, rfl, rfl, by simp, hex', hp⟩
    · rw [if_neg hp]
      obtain ⟨q, hq, hqgt⟩ := hex
      have hq' : q ∈ l := by
        rcases List.mem_cons.mp hq with rfl | h
        · exact absurd hqgt hp
        · exact h
      obtain ⟨l1, best, l2, heq, hfold, h1, h2, hlt⟩ := ih acc ⟨q, hq', hqgt⟩
      exact ⟨p :: l1, best, l2, by rw [heq, List.cons_append], hfold,
        fun r hr => (List.mem_cons.mp hr).elim
          (fun h => h ▸ lt_of_le_of_lt (not_lt.mp hp) hlt) (h1 r),
        h2, hlt⟩

/-- C2: among the valid target pins that have a cache entry, and for scores
that are nonnegative (residual fields and weights are nonnegative in every
solver run), `findBestNextPin` returns the candidate of maximal score, and
on ties the one encountered earliest in the walk: its score strictly
exceeds every earlier candidate's and weakly dominates every later
candidate's, exactly as a strict-`>` maximum scan produces. -/
theorem findBestNextPin_selects (currentPin : ℤ) (errorMatrix : List ℚ)
    (lineCache : LineCache) (lastPins : List ℤ) (params : StringArtParameters)
    (hne : (getValidTargetPins currentPin params.minDistance params.numberOfPins
        lastPins).filter (hasCacheEntry currentPin lineCache params) ≠ [])
    (hnn : ∀ p ∈ (getValidTargetPins currentPin params.minDistance params.numberOfPins
        lastPins).filter (hasCacheEntry currentPin lineCache params),
      0 ≤ candidateScore currentPin errorMatrix lineCache params p) :
    ∃ l1 best l2,
      (getValidTargetPins currentPin params.minDistance params.numberOfPins
          lastPins).filter (hasCacheEntry currentPin lineCache params) = l1 ++ best :: l2 ∧
      (findBestNextPin currentPin errorMatrix lineCache lastPins params).bestPin = best ∧
      (findBestNextPin currentPin errorMatrix lineCache lastPins params).error =
        candidateScore currentPin errorMatrix lineCache params best ∧
      (∀ p ∈ l1, candidateScore currentPin errorMatrix lineCache params p <
        candidateScore currentPin errorMatrix lineCache params best) ∧
      (∀ p ∈ l2, candidateScore currentPin errorMatrix lineCache params p ≤
        candidateScore currentPin errorMatrix lineCache params best) := by
  set scored := (getValidTargetPins currentPin params.minDistance params.numberOfPins
    lastPins).filter (hasCacheEntry currentPin lineCache params) with hscored
  obtain ⟨q, hq⟩ := List.exists_mem_of_ne_nil scored hne
  have hex : ∃ p ∈ scored, ((-1 : ℤ), (-1 : ℚ)).2 < candidateScore currentPin errorMatrix
      lineCache params p :=
    ⟨q, hq, lt_of_lt_of_le (by norm_num) (hnn q hq)⟩
  obtain ⟨l1, best, l2, heq, hfold, h1, h2, _⟩ :=
    foldl_max_found (candidateScore currentPin errorMatrix lineCache params) scored
      ((-1 : ℤ), (-1 : ℚ)) hex
  have hr : (getValidTargetPins currentPin params.minDistance params.numberOfPins
      lastPins).foldl (bestPinStep currentPin errorMatrix lineCache params)
      ((-1 : ℤ), (-1 : ℚ)) =
      (best, candidateScore currentPin errorMatrix lineCache params best) := by
    rw [bestPinStep_eq_guard,
      foldl_guard (hasCacheEntry currentPin lineCache params)
        (fun a p => if candidateScore currentPin errorMatrix lineCache params p > a.2 then
          (p, candidateScore currentPin errorMatrix lineCache params p) else a)]
    exact hfold
  refine ⟨l1, best, l2, heq, ?_, ?_, h1, h2⟩
  · show ((getValidTargetPins currentPin params.minDistance params.numberOfPins
        lastPins).foldl (bestPinStep currentPin errorMatrix lineCache params)
        ((-1 : ℤ), (-1 : ℚ))).1 = best
    rw [hr]
  · show ((getValidTargetPins currentPin params.minDistance params.numberOfPins
        lastPins).foldl (bestPinStep currentPin errorMatrix lineCache params)
        ((-1 : ℤ), (-1 : ℚ))).2 =
      candidateScore currentPin errorMatrix lineCache params best
    rw [hr]

/-- A concrete cache (every slot holds the one-pixel line `(0,0)`, weight 1)
for the `findBestNextPin` witness. -/
def c2Cache : LineCache :=
  ⟨fun _ => some [0], fun _ => some [0], fun _ => 0, fun _ => 1⟩

/-- Concrete parameters (4 pins, `minDistance` 1, image width 1) for the
`findBestNextPin` witness. -/
def c2Params : StringArtParameters := ⟨4, 1, 0, 0, 1, 0⟩

/-- C2 witness: the selection theorem applied to a one-pixel matrix `[2]`
with the constant cache. -/
theorem findBestNextPin_selects_witness :
    ∃ l1 best l2,
      (getValidTargetPins 0 c2Params.minDistance c2Params.numberOfPins []).filter
        (hasCacheEntry 0 c2Cache c2Params) = l1 ++ best :: l2 ∧
      (findBestNextPin 0 [2] c2Cache [] c2Params).bestPin = best ∧
      (findBestNextPin 0 [2] c2Cache [] c2Params).error =
        candidateScore 0 [2] c2Cache c2Params best ∧
      (∀ p ∈ l1, candidateScore 0 [2] c2Cache c2Params p <
        candidateScore 0 [2] c2Cache c2Params best) ∧
      (∀ p ∈ l2, candidateScore 0 [2] c2Cache c2Params p ≤
        candidateScore 0 [2] c2Cache c2Params best) :=
  findBestNextPin_selects 0 [2] c2Cache [] c2Params (by decide)
    (by
      intro p _
      norm_num [candidateScore, c2Cache, c2Params, calculateLineError, lineErrStep, List.zip])

/-! ## Embedding of `optimizeStringArt` (`src/lib/algorithms/lineOptimization.ts`) -/

/-- The mutable state of the solver loop: the residual field (mutated in
place in TS), `currentPin`, the output `lineSequence`, and the `lastPins`
queue.  The `totalThreadLength` accumulator and the progress callback are
omitted: they read but never influence these fields, and no claim mentions
them. -/
structure OptState where
  errorMatrix : List ℚ
  currentPin : ℤ
  lineSequence : List ℤ
  lastPins : List ℤ

/-- One iteration of the solver loop, executed when `bestPin ≠ −1`: push
`bestPin` onto the sequence, apply the chosen line's mask when its cache
entry is present, push `bestPin` onto `lastPins` and shift the oldest
entry out when the queue exceeds 20, and move to `bestPin`. -/
def optIter (lineCache : LineCache) (params : StringArtParameters) (s : OptState)
    (bestPin : ℤ) : OptState :=
  let cacheIndex := bestPin * params.numberOfPins + s.currentPin
  let errorMatrix' :=
    match lineCache.x cacheIndex, lineCache.y cacheIndex with
    | some xs, some ys => applyLineMask s.errorMatrix xs ys params.lineWeight params.imgSize
    | _, _ => s.errorMatrix
  let lastPins' :=
    let lp := s.lastPins ++ [bestPin]
    if 20 < lp.length then lp.drop 1 else lp
  { errorMatrix := errorMatrix',
    currentPin := bestPin,
    lineSequence := s.lineSequence ++ [bestPin],
    lastPins := lastPins' }

/-- The solver loop, with the remaining iteration count as fuel; the loop
breaks as soon as `findBestNextPin` reports `bestPin = −1`. -/
def optLoop (lineCache : LineCache) (params : StringArtParameters) :
    ℕ → OptState → OptState
  | 0, s => s
  | fuel + 1, s =>
    let r := findBestNextPin s.currentPin s.errorMatrix lineCache s.lastPins params
    if r.bestPin = -1 then s
    else optLoop lineCache params fuel (optIter lineCache params s r.bestPin)

/-- `optimizeStringArt(errorMatrix, pinCoords, lineCache, params)` from
`lineOptimization.ts`: run the loop `numberOfLines` times starting from pin
0 with `lineSequence = [0]` and an empty `lastPins` queue.  The pair
returned models `{lineSequence, …}` together with the final state of the
caller's (mutated) residual buffer; `pinCoords` feeds only the omitted
thread-length accumulator and progress callback. -/
def optimizeStringArt (errorMatrix : List ℚ) (pinCoords : List (ℤ × ℤ))
    (lineCache : LineCache) (params : StringArtParameters) : List ℤ × List ℚ :=
  let _ := pinCoords
  let final := optLoop lineCache params params.numberOfLines ⟨errorMatrix, 0, [0], []⟩
  (final.lineSequence, final.errorMatrix)

/-! ### List index helpers -/

theorem getD_append_left {l l' : List ℤ} {i : ℕ} (h : i < l.length) (d : ℤ) :
    (l ++ l').getD i d = l.getD i d := by
  rw [List.getD_eq_getElem?_getD, List.getD_eq_getElem?_getD, List.getElem?_append,
    if_pos h]

theorem getD_append_self (l : List ℤ) (x d : ℤ) :
    (l ++ [x]).getD l.length d = x := by
  rw [List.getD_eq_getElem?_getD, List.getElem?_append_right (le_refl _)]
  simp

theorem getD_drop (l : List ℤ) (n i : ℕ) (d : ℤ) :
    (l.drop n).getD i d = l.getD (n + i) d := by
  rw [List.getD_eq_getElem?_getD, List.getD_eq_getElem?_getD, List.getElem?_drop]

theorem getD_mem {l : List ℤ} {i : ℕ} (h : i < l.length) (d : ℤ) : l.getD i d ∈ l := by
  rw [List.getD_eq_getElem?_getD, List.getElem?_eq_getElem h]
  exact List.getElem_mem h

/-! ### Properties of the candidates delivered to the solver -/

/-- Every pin the candidate walk returns is a valid pin index at ring
distance at least `minDistance` from the current pin and outside the
exclusion list. -/
theorem mem_getValidTargetPins_props {c md n : ℤ} {excl : List ℤ} {p : ℤ}
    (hc0 : 0 ≤ c) (hcn : c < n) (hmd : 1 ≤ md) (hn : 2 * md < n)
    (hp : p ∈ getValidTargetPins c md n excl) :
    0 ≤ p ∧ p < n ∧ md ≤ calculateMinPinDistance c p n ∧ p ∉ excl := by
  unfold getValidTargetPins at hp
  rw [List.mem_filter] at hp
  obtain ⟨hmap, hexcl⟩ := hp
  rw [List.mem_map] at hmap
  obtain ⟨k, hk, rfl⟩ := hmap
  rw [List.mem_range] at hk
  have hexcl' : getPinAtOffset c (md + (k : ℤ)) n ∉ excl := by
    simpa using hexcl
  have hkz : (k : ℤ) < n - 2 * md := by omega
  have hco : 0 ≤ c + (md + (k : ℤ)) := by omega
  have hnpos : 0 < n := by omega
  rw [getPinAtOffset, Int.tmod_eq_emod hco (le_of_lt hnpos)] at hexcl' ⊢
  refine ⟨Int.emod_nonneg _ (ne_of_gt hnpos), Int.emod_lt_of_pos _ hnpos, ?_, hexcl'⟩
  have hdef : (c + (md + (k : ℤ))) % n =
      c + (md + (k : ℤ)) - n * ((c + (md + (k : ℤ))) / n) :=
    Int.emod_def _ n
  have hq0 : 0 ≤ (c + (md + (k : ℤ))) / n := Int.ediv_nonneg hco (le_of_lt hnpos)
  have hq2 : (c + (md + (k : ℤ))) / n < 2 :=
    Int.ediv_lt_of_lt_mul hnpos (by omega)
  have hq01 : (c + (md + (k : ℤ))) / n = 0 ∨ (c + (md + (k : ℤ))) / n = 1 := by omega
  unfold calculateMinPinDistance
  apply le_min <;>
    rcases abs_cases ((c + (md + (k : ℤ))) % n - c) with ⟨habs, _⟩ | ⟨habs, _⟩ <;>
    rw [habs] <;>
    rcases hq01 with hq | hq <;>
    rw [hq] at hdef <;>
    omega

/-- The strict-max scan's first component is the initial `bestPin` or an
element of the scanned list. -/
theorem foldl_bestPinStep_fst (currentPin : ℤ) (errorMatrix : List ℚ)
    (lineCache : LineCache) (params : StringArtParameters) :
    ∀ (l : List ℤ) (acc : ℤ × ℚ),
      (l.foldl (bestPinStep currentPin errorMatrix lineCache params) acc).1 = acc.1 ∨
      (l.foldl (bestPinStep currentPin errorMatrix lineCache params) acc).1 ∈ l := by
  intro l
  induction l with
  | nil => intro acc; exact Or.inl rfl
  | cons p l ih =>
    intro acc
    rw [List.foldl_cons]
    have hstep : (bestPinStep currentPin errorMatrix lineCache params acc p).1 = acc.1 ∨
        (bestPinStep currentPin errorMatrix lineCache params acc p).1 = p := by
      rw [bestPinStep_eq_guard]
      dsimp only
      split_ifs <;> simp
    rcases ih (bestPinStep currentPin errorMatrix lineCache params acc p) with h | h
    · rcases hstep with h' | h'
      · exact Or.inl (h.trans h')
      · exact Or.inr (by rw [h, h']; exact List.mem_cons_self p l)
    · exact Or.inr (List.mem_cons_of_mem p h)

/-- The pin the scan returns is `−1` or one of the valid candidates. -/
theorem findBestNextPin_bestPin_mem (currentPin : ℤ) (errorMatrix : List ℚ)
    (lineCache : LineCache) (lastPins : List ℤ) (params : StringArtParameters) :
    (findBestNextPin currentPin errorMatrix lineCache lastPins params).bestPin = -1 ∨
    (findBestNextPin currentPin errorMatrix lineCache lastPins params).bestPin ∈
      getValidTargetPins currentPin params.minDistance params.numberOfPins lastPins := by
  unfold findBestNextPin
  exact foldl_bestPinStep_fst currentPin errorMatrix lineCache params _ _

/-- The solver-loop invariant: the sequence is nonempty, starts at pin 0 and
ends at the current pin, which is a valid pin index; consecutive pins are at
ring distance at least `minDistance`; no pin equals any of the up-to-20
preceding pins (the start pin `q_0` excluded from the window); and
`lastPins` holds exactly the last 20 (or fewer) appended pins. -/
def SeqInv (params : StringArtParameters) (s : OptState) : Prop :=
  s.lineSequence ≠ [] ∧
  s.lineSequence.getD 0 0 = 0 ∧
  s.lineSequence.getD (s.lineSequence.length - 1) 0 = s.currentPin ∧
  0 ≤ s.currentPin ∧ s.currentPin < params.numberOfPins ∧
  (∀ i : ℕ, i + 1 < s.lineSequence.length →
    params.minDistance ≤ calculateMinPinDistance (s.lineSequence.getD i 0)
      (s.lineSequence.getD (i + 1) 0) params.numberOfPins) ∧
  (∀ i j : ℕ, 1 ≤ j → j < i → i < s.lineSequence.length → i ≤ j + 20 →
    s.lineSequence.getD i 0 ≠ s.lineSequence.getD j 0) ∧
  s.lastPins = (s.lineSequence.drop 1).drop (s.lineSequence.length - 1 - 20)

theorem optIter_inv (lineCache : LineCache) (params : StringArtParameters) (s : OptState)
    (bestPin : ℤ) (hmd : 1 ≤ params.minDistance)
    (hn : 2 * params.minDistance < params.numberOfPins)
    (hinv : SeqInv params s)
    (hmem : bestPin ∈ getValidTargetPins s.currentPin params.minDistance
      params.numberOfPins s.lastPins) :
    SeqInv params (optIter lineCache params s bestPin) := by
  obtain ⟨hne, hhead, hlast, hc0, hcn, hcons, hwin, hlp⟩ := hinv
  obtain ⟨hb0, hbn, hbd, hbex⟩ := mem_getValidTargetPins_props hc0 hcn hmd hn hmem
  set L := s.lineSequence with hL
  have hlen1 : 1 ≤ L.length := List.length_pos.mpr hne
  have hseq : (optIter lineCache params s bestPin).lineSequence = L ++ [bestPin] := rfl
  have hcur : (optIter lineCache params s bestPin).currentPin = bestPin := rfl
  refine ⟨?_, ?_, ?_, ?_, ?_, ?_, ?_, ?_⟩
  · rw [hseq]; simp
  · rw [hseq, getD_append_left (by omega) 0]; exact hhead
  · rw [hseq, hcur]
    have hl1 : (L ++ [bestPin]).length - 1 = L.length := by
      rw [List.length_append]; simp
    rw [hl1]
    exact getD_append_self L bestPin 0
  · rw [hcur]; exact hb0
  · rw [hcur]; exact hbn
  · intro i hi
    rw [hseq] at hi ⊢
    rw [List.length_append] at hi
    simp only [List.length_singleton] at hi
    by_cases hilt : i + 1 < L.length
    · rw [getD_append_left (by omega) 0, getD_append_left hilt 0]
      exact hcons i hilt
    · have hieq : i + 1 = L.length := by omega
      rw [getD_append_left (by omega) 0, hieq, getD_append_self]
      have hi' : i = L.length - 1 := by omega
      rw [hi', hlast]
      exact hbd
  · intro i j hj1 hji hi hij
    rw [hseq] at hi ⊢
    rw [List.length_append] at hi
    simp only [List.length_singleton] at hi
    by_cases hilt : i < L.length
    · rw [getD_append_left hilt 0, getD_append_left (by omega) 0]
      exact hwin i j hj1 hji hilt hij
    · have hieq : i = L.length := by omega
      rw [hieq, getD_append_self, getD_append_left (by omega) 0]
      intro hcontra
      apply hbex
      rw [hcontra, hlp]
      have ht : L.getD j 0 = ((L.drop 1).drop (L.length - 1 - 20)).getD
          (j - 1 - (L.length - 1 - 20)) 0 := by
        rw [getD_drop, getD_drop]
        congr 1
        omega
      rw [ht]
      apply getD_mem
      rw [List.length_drop, List.length_drop]
      omega
  · show (let lp := s.lastPins ++ [bestPin]; if 20 < lp.length then lp.drop 1 else lp) =
      ((L ++ [bestPin]).drop 1).drop ((L ++ [bestPin]).length - 1 - 20)
    dsimp only
    rw [hlp]
    have hdrop1 : (L ++ [bestPin]).drop 1 = L.drop 1 ++ [bestPin] :=
      List.drop_append_of_le_length (by omega)
    rw [List.length_append, hdrop1]
    simp only [List.length_singleton]
    have hlplen : ((L.drop 1).drop (L.length - 1 - 20)).length =
        (L.length - 1) - (L.length - 1 - 20) := by
      rw [List.length_drop, List.length_drop]
    split_ifs with hcase
    · rw [hlplen] at hcase
      have h20 : 20 ≤ L.length - 1 := by omega
      rw [List.drop_append_of_le_length (by rw [hlplen]; omega), List.drop_drop]
      rw [show (L ++ [bestPin]).length - 1 - 20 = L.length - 20 by
        simp only [List.length_append, List.length_singleton]; omega]
      rw [List.drop_append_of_le_length (by rw [List.length_drop]; omega)]
      congr 2
      omega
    · rw [hlplen] at hcase
      have hz1 : L.length - 1 - 20 = 0 := by omega
      have hz2 : (L ++ [bestPin]).length - 1 - 20 = 0 := by
        simp only [List.length_append, List.length_singleton]; omega
      rw [hz1, hz2, List.drop_zero, List.drop_zero]

/-- The loop preserves the invariant and adds at most one pin per fuel unit. -/
theorem optLoop_inv (lineCache : LineCache) (params : StringArtParameters)
    (hmd : 1 ≤ params.minDistance) (hn : 2 * params.minDistance < params.numberOfPins) :
    ∀ (fuel : ℕ) (s : OptState), SeqInv params s →
      SeqInv params (optLoop lineCache params fuel s) ∧
      (optLoop lineCache params fuel s).lineSequence.length ≤
        s.lineSequence.length + fuel := by
  intro fuel
  induction fuel with
  | zero => exact fun s h => ⟨h, Nat.le_refl _⟩
  | succ fuel ih =>
    intro s h
    show SeqInv params (if _ then s else _) ∧ (if _ then s else _).lineSequence.length ≤ _
    by_cases hr : (findBestNextPin s.currentPin s.errorMatrix lineCache s.lastPins
        params).bestPin = -1
    · rw [if_pos hr]
      exact ⟨h, by omega⟩
    · rw [if_neg hr]
      have hmem : (findBestNextPin s.currentPin s.errorMatrix lineCache s.lastPins
          params).bestPin ∈ getValidTargetPins s.currentPin params.minDistance
          params.numberOfPins s.lastPins := by
        rcases findBestNextPin_bestPin_mem s.currentPin s.errorMatrix lineCache
          s.lastPins params with h' | h'
        · exact absurd h' hr
        · exact h'
      obtain ⟨hinv', hlen'⟩ := ih _ (optIter_inv lineCache params s _ hmd hn h hmem)
      refine ⟨hinv', hlen'.trans ?_⟩
      have : (optIter lineCache params s (findBestNextPin s.currentPin s.errorMatrix
          lineCache s.lastPins params).bestPin).lineSequence.length =
          s.lineSequence.length + 1 := by
        show (s.lineSequence ++ [_]).length = _
        rw [List.length_append]
        simp
      omega

/-- C1: for valid parameters (`3 ≤ n_pins`, `1 ≤ min_distance < n_pins/2`,
`n_lines ≥ 1`) and any residual field and line cache, the sequence returned
by `optimizeStringArt` has length at most `n_lines + 1`, starts at pin 0,
every consecutive pair is at ring distance at least `min_distance`, and
every element `q_i` with `i ≥ 1` differs from each of the up-to-20
preceding elements `q_{i-1}, …, q_{max(1, i-20)}` (the start pin `q_0` is
outside the excluded window). -/
theorem optimizeStringArt_sequence_invariants (m0 : List ℚ) (pinCoords : List (ℤ × ℤ))
    (lineCache : LineCache) (params : StringArtParameters)
    (h3 : 3 ≤ params.numberOfPins) (hmd : 1 ≤ params.minDistance)
    (hn : 2 * params.minDistance < params.numberOfPins)
    (hnl : 1 ≤ params.numberOfLines) :
    (optimizeStringArt m0 pinCoords lineCache params).1.length ≤ params.numberOfLines + 1 ∧
    (optimizeStringArt m0 pinCoords lineCache params).1.getD 0 0 = 0 ∧
    (∀ i : ℕ, i + 1 < (optimizeStringArt m0 pinCoords lineCache params).1.length →
      params.minDistance ≤ calculateMinPinDistance
        ((optimizeStringArt m0 pinCoords lineCache params).1.getD i 0)
        ((optimizeStringArt m0 pinCoords lineCache params).1.getD (i + 1) 0)
        params.numberOfPins) ∧
    (∀ i j : ℕ, 1 ≤ j → j < i →
      i < (optimizeStringArt m0 pinCoords lineCache params).1.length → i ≤ j + 20 →
      (optimizeStringArt m0 pinCoords lineCache params).1.getD i 0 ≠
        (optimizeStringArt m0 pinCoords lineCache params).1.getD j 0) := by
  have hinit : SeqInv params ⟨m0, 0, [0], []⟩ := by
    refine ⟨by simp, rfl, rfl, le_refl 0, by show (0 : ℤ) < params.numberOfPins; omega,
      ?_, ?_, rfl⟩
    · intro i hi
      simp only [List.length_singleton] at hi
      omega
    · intro i j h1 h2 h3' _
      simp only [List.length_singleton] at h3'
      omega
  obtain ⟨hinv, hlen⟩ := optLoop_inv lineCache params hmd hn params.numberOfLines _ hinit
  obtain ⟨_, hhead, _, _, _, hcons, hwin, _⟩ := hinv
  have h1 : (([0] : List ℤ)).length + params.numberOfLines = params.numberOfLines + 1 := by
    simp only [List.length_singleton]
    omega
  exact ⟨hlen.trans (le_of_eq h1), hhead, hcons, hwin⟩

/-- C1 witness: the invariants at a one-line run on an empty field with the
constant cache and 4 pins. -/
theorem optimizeStringArt_sequence_invariants_witness :
    (optimizeStringArt [] [] c2Cache ⟨4, 1, 1, 0, 1, 0⟩).1.length ≤ 1 + 1 ∧
    (optimizeStringArt [] [] c2Cache ⟨4, 1, 1, 0, 1, 0⟩).1.getD 0 0 = 0 ∧
    (∀ i : ℕ, i + 1 < (optimizeStringArt [] [] c2Cache ⟨4, 1, 1, 0, 1, 0⟩).1.length →
      (⟨4, 1, 1, 0, 1, 0⟩ : StringArtParameters).minDistance ≤ calculateMinPinDistance
        ((optimizeStringArt [] [] c2Cache ⟨4, 1, 1, 0, 1, 0⟩).1.getD i 0)
        ((optimizeStringArt [] [] c2Cache ⟨4, 1, 1, 0, 1, 0⟩).1.getD (i + 1) 0) 4) ∧
    (∀ i j : ℕ, 1 ≤ j → j < i →
      i < (optimizeStringArt [] [] c2Cache ⟨4, 1, 1, 0, 1, 0⟩).1.length → i ≤ j + 20 →
      (optimizeStringArt [] [] c2Cache ⟨4, 1, 1, 0, 1, 0⟩).1.getD i 0 ≠
        (optimizeStringArt [] [] c2Cache ⟨4, 1, 1, 0, 1, 0⟩).1.getD j 0) :=
  optimizeStringArt_sequence_invariants [] [] c2Cache ⟨4, 1, 1, 0, 1, 0⟩
    (by norm_num) (by norm_num) (by norm_num) (by norm_num)

/-- `applyLineMask` keeps every matrix element in `[0, 255]`. -/
theorem applyLineMask_mem_range (m : List ℚ) (xs ys : List ℤ) (lw : ℚ) (w : ℤ)
    (h : ∀ v ∈ m, 0 ≤ v ∧ v ≤ 255) :
    ∀ v ∈ applyLineMask m xs ys lw w, 0 ≤ v ∧ v ≤ 255 :=
  foldl_maskStep_mem_range lw w (xs.zip ys) m h

/-- One iteration keeps every residual value in `[0, 255]`. -/
theorem optIter_matrix_range (lineCache : LineCache) (params : StringArtParameters)
    (s : OptState) (bestPin : ℤ) (h : ∀ v ∈ s.errorMatrix, 0 ≤ v ∧ v ≤ 255) :
    ∀ v ∈ (optIter lineCache params s bestPin).errorMatrix, 0 ≤ v ∧ v ≤ 255 := by
  unfold optIter
  dsimp only
  cases lineCache.x (bestPin * params.numberOfPins + s.currentPin) <;>
    cases lineCache.y (bestPin * params.numberOfPins + s.currentPin) <;>
    first
      | exact h
      | exact applyLineMask_mem_range s.errorMatrix _ _ params.lineWeight params.imgSize h

/-- The whole loop keeps every residual value in `[0, 255]`. -/
theorem optLoop_matrix_range (lineCache : LineCache) (params : StringArtParameters) :
    ∀ (fuel : ℕ) (s : OptState), (∀ v ∈ s.errorMatrix, 0 ≤ v ∧ v ≤ 255) →
      ∀ v ∈ (optLoop lineCache params fuel s).errorMatrix, 0 ≤ v ∧ v ≤ 255 := by
  intro fuel
  induction fuel with
  | zero => exact fun s h => h
  | succ fuel ih =>
    intro s h
    simp only [optLoop]
    split_ifs with hr
    · exact h
    · exact ih _ (optIter_matrix_range lineCache params s _ h)

/-- C5 (amended): `applyLineMask` applies the update
`F[p] ← clamp(F[p] − lineWeight, 0, 255)` once per occurrence of each
in-bounds flat index in the coordinate lists: an element addressed exactly
once ends at `clamp(old − lineWeight, 0, 255)`, an element addressed `k`
times receives `k` clamped subtractions, and an element never addressed is
unchanged; every updated value lies in `[0, 255]`, so a matrix with all
elements in `[0, 255]` stays that way, and after a full `optimizeStringArt`
run every residual element lies in `[0, 255]`. -/
theorem applyLineMask_clamp_update (m : List ℚ) (xs ys : List ℤ) (lw : ℚ) (w : ℤ)
    (j : ℕ) (hj : j < m.length) :
    ((xs.zip ys).countP (fun p => decide (p.2 * w + p.1 = (j : ℤ))) = 1 →
      (applyLineMask m xs ys lw w).getD j 0 = clampStep lw (m.getD j 0)) ∧
    ((xs.zip ys).countP (fun p => decide (p.2 * w + p.1 = (j : ℤ))) = 0 →
      (applyLineMask m xs ys lw w).getD j 0 = m.getD j 0) ∧
    ((applyLineMask m xs ys lw w).getD j 0 =
      (clampStep lw)^[(xs.zip ys).countP (fun p => decide (p.2 * w + p.1 = (j : ℤ)))]
        (m.getD j 0)) ∧
    ((∀ v ∈ m, 0 ≤ v ∧ v ≤ 255) → ∀ v ∈ applyLineMask m xs ys lw w, 0 ≤ v ∧ v ≤ 255) ∧
    (∀ (pinCoords : List (ℤ × ℤ)) (lineCache : LineCache) (params : StringArtParameters),
      (∀ v ∈ m, 0 ≤ v ∧ v ≤ 255) →
      ∀ v ∈ (optimizeStringArt m pinCoords lineCache params).2, 0 ≤ v ∧ v ≤ 255) := by
  have hgen := foldl_maskStep_getD lw w (xs.zip ys) m j hj
  refine ⟨?_, ?_, hgen, applyLineMask_mem_range m xs ys lw w, ?_⟩
  · intro hcount
    rw [hcount, Function.iterate_one] at hgen
    exact hgen
  · intro hcount
    rw [hcount, Function.iterate_zero_apply] at hgen
    exact hgen
  · intro pinCoords lineCache params h
    exact optLoop_matrix_range lineCache params params.numberOfLines _ h

/-- C5 witness: the clamp update applied to the one-element matrix `[255]`
with the single sample `(0, 0)` and weight 1. -/
theorem applyLineMask_clamp_update_witness :
    (([(0 : ℤ)].zip [(0 : ℤ)]).countP
        (fun p => decide (p.2 * 1 + p.1 = ((0 : ℕ) : ℤ))) = 1 →
      (applyLineMask [(255 : ℚ)] [0] [0] 1 1).getD 0 0 =
        clampStep 1 ([(255 : ℚ)].getD 0 0)) ∧
    (([(0 : ℤ)].zip [(0 : ℤ)]).countP
        (fun p => decide (p.2 * 1 + p.1 = ((0 : ℕ) : ℤ))) = 0 →
      (applyLineMask [(255 : ℚ)] [0] [0] 1 1).getD 0 0 = [(255 : ℚ)].getD 0 0) ∧
    ((applyLineMask [(255 : ℚ)] [0] [0] 1 1).getD 0 0 =
      (clampStep 1)^[([(0 : ℤ)].zip [(0 : ℤ)]).countP
        (fun p => decide (p.2 * 1 + p.1 = ((0 : ℕ) : ℤ)))] ([(255 : ℚ)].getD 0 0)) ∧
    ((∀ v ∈ [(255 : ℚ)], 0 ≤ v ∧ v ≤ 255) →
      ∀ v ∈ applyLineMask [(255 : ℚ)] [0] [0] 1 1, 0 ≤ v ∧ v ≤ 255) ∧
    (∀ (pinCoords : List (ℤ × ℤ)) (lineCache : LineCache) (params : StringArtParameters),
      (∀ v ∈ [(255 : ℚ)], 0 ≤ v ∧ v ≤ 255) →
      ∀ v ∈ (optimizeStringArt [(255 : ℚ)] pinCoords lineCache params).2,
        0 ≤ v ∧ v ≤ 255) :=
  applyLineMask_clamp_update [(255 : ℚ)] [0] [0] 1 1 0 (by decide)

/-! ## C7: pin placement -/

theorem calculatePinPositions_getD (n : ℕ) (c r : ℝ) (i : ℕ) (hi : i < n) :
    (calculatePinPositions n c r).getD i (0, 0) =
      (⌊c + r * Real.cos (2 * Real.pi * (i : ℝ) / (n : ℝ))⌋,
       ⌊c + r * Real.sin (2 * Real.pi * (i : ℝ) / (n : ℝ))⌋) := by
  unfold calculatePinPositions
  rw [List.getD_eq_getElem?_getD, List.getElem?_map, List.getElem?_range hi]
  rfl

set_option maxHeartbeats 1000000 in
/-- Flooring a point of the circle of radius `r` moves it by less than `√2`,
so its distance to the centre stays within `[r − √2, r + √2]`. -/
theorem dist_floor_circle (c r θ : ℝ) (hr : Real.sqrt 2 ≤ r) :
    r - Real.sqrt 2 ≤
      Real.sqrt ((c - (⌊c + r * Real.cos θ⌋ : ℝ)) * (c - (⌊c + r * Real.cos θ⌋ : ℝ)) +
        (c - (⌊c + r * Real.sin θ⌋ : ℝ)) * (c - (⌊c + r * Real.sin θ⌋ : ℝ))) ∧
    Real.sqrt ((c - (⌊c + r * Real.cos θ⌋ : ℝ)) * (c - (⌊c + r * Real.cos θ⌋ : ℝ)) +
        (c - (⌊c + r * Real.sin θ⌋ : ℝ)) * (c - (⌊c + r * Real.sin θ⌋ : ℝ))) ≤
      r + Real.sqrt 2 := by
  have hr0 : 0 ≤ r := le_trans (Real.sqrt_nonneg 2) hr
  have h22 : Real.sqrt 2 ^ 2 = 2 := Real.sq_sqrt (by norm_num)
  set u : ℝ := c + r * Real.cos θ with hu
  set v : ℝ := c + r * Real.sin θ with hv
  set x : ℝ := (⌊u⌋ : ℝ) with hx
  set y : ℝ := (⌊v⌋ : ℝ) with hy
  have hux1 : u - 1 < x := Int.sub_one_lt_floor u
  have hux2 : x ≤ u := Int.floor_le u
  have hvy1 : v - 1 < y := Int.sub_one_lt_floor v
  have hvy2 : y ≤ v := Int.floor_le v
  have hpq : (u - c) ^ 2 + (v - c) ^ 2 = r ^ 2 := by
    rw [hu, hv]
    nlinarith [Real.sin_sq_add_cos_sq θ]
  have ht2 : ((u - c) * (u - x) + (v - c) * (v - y)) ^ 2 ≤
      r ^ 2 * ((u - x) ^ 2 + (v - y) ^ 2) := by
    nlinarith [sq_nonneg ((u - c) * (v - y) - (v - c) * (u - x)), hpq]
  set s : ℝ := Real.sqrt ((u - x) ^ 2 + (v - y) ^ 2) with hs
  have hs0 : 0 ≤ s := Real.sqrt_nonneg _
  have hs2 : s ^ 2 = (u - x) ^ 2 + (v - y) ^ 2 := Real.sq_sqrt (by positivity)
  have hs_le : s ≤ Real.sqrt 2 := by
    rw [hs]
    apply Real.sqrt_le_sqrt
    nlinarith
  set t : ℝ := (u - c) * (u - x) + (v - c) * (v - y) with ht
  have habs : |t| ≤ r * s := by
    have h2 : |t| = Real.sqrt (t ^ 2) := (Real.sqrt_sq_eq_abs t).symm
    have h3 : Real.sqrt (t ^ 2) ≤ Real.sqrt (r ^ 2 * s ^ 2) :=
      Real.sqrt_le_sqrt (by rw [hs2]; exact ht2)
    have h4 : Real.sqrt (r ^ 2 * s ^ 2) = r * s := by
      rw [show r ^ 2 * s ^ 2 = (r * s) ^ 2 by ring, Real.sqrt_sq (mul_nonneg hr0 hs0)]
    rw [h2]
    rw [h4] at h3
    exact h3
  have htle : t ≤ r * s := le_trans (le_abs_self t) habs
  have htge : -(r * s) ≤ t := (abs_le.mp habs).1
  have hdist2 : (c - x) * (c - x) + (c - y) * (c - y) =
      r ^ 2 - 2 * t + ((u - x) ^ 2 + (v - y) ^ 2) := by
    rw [ht]
    linear_combination hpq
  have hrs : r * s ≤ r * Real.sqrt 2 := mul_le_mul_of_nonneg_left hs_le hr0
  have hs22 : s ^ 2 ≤ 2 := by nlinarith
  constructor
  · have hlower2 : (r - Real.sqrt 2) ^ 2 ≤ (c - x) * (c - x) + (c - y) * (c - y) := by
      rw [hdist2, ← hs2]
      nlinarith [htle, mul_nonneg (sub_nonneg.mpr hs_le)
        (show (0 : ℝ) ≤ 2 * r - Real.sqrt 2 - s by linarith)]
    calc r - Real.sqrt 2 = Real.sqrt ((r - Real.sqrt 2) ^ 2) :=
        (Real.sqrt_sq (by linarith)).symm
    _ ≤ _ := Real.sqrt_le_sqrt hlower2
  · have hupper2 : (c - x) * (c - x) + (c - y) * (c - y) ≤ (r + Real.sqrt 2) ^ 2 := by
      rw [hdist2, ← hs2]
      nlinarith [htge, hrs]
    calc Real.sqrt ((c - x) * (c - x) + (c - y) * (c - y)) ≤
        Real.sqrt ((r + Real.sqrt 2) ^ 2) := Real.sqrt_le_sqrt hupper2
    _ = r + Real.sqrt 2 := Real.sqrt_sq (by positivity)

/-- C7 (amended): for integer `n_pins ∈ [3, 1000]` and `img_size ∈ [100, 2000]`,
`calculatePins` returns exactly `n_pins` coordinates, pin `i` being
`(⌊c + r·cos(2πi/n_pins)⌋, ⌊c + r·sin(2πi/n_pins)⌋)` with `c = img_size/2`
and `r = c − 0.5`, each angle computed directly from `i`; every coordinate
satisfies `0 ≤ x, y < img_size`, and the Euclidean distance of every pin
from the centre lies in `[img_size/2 − 2, img_size/2 + 1]` (the flooring can
move a pin by up to `√2`, so the claimed interval
`[img_size/2 − 1.5, img_size/2 − 0.5]` is not maintained). -/
theorem calculatePins_bounds (n : ℕ) (img : ℤ)
    (hn3 : 3 ≤ n) (hn1000 : n ≤ 1000) (h100 : 100 ≤ img) (h2000 : img ≤ 2000) :
    (calculatePins n img).length = n ∧
    (∀ i : ℕ, i < n →
      (calculatePins n img).getD i (0, 0) =
        (⌊(img : ℝ) / 2 + ((img : ℝ) / 2 - 0.5) * Real.cos (2 * Real.pi * (i : ℝ) / (n : ℝ))⌋,
         ⌊(img : ℝ) / 2 + ((img : ℝ) / 2 - 0.5) * Real.sin (2 * Real.pi * (i : ℝ) / (n : ℝ))⌋)) ∧
    (∀ i : ℕ, i < n →
      0 ≤ ((calculatePins n img).getD i (0, 0)).1 ∧
      ((calculatePins n img).getD i (0, 0)).1 < img ∧
      0 ≤ ((calculatePins n img).getD i (0, 0)).2 ∧
      ((calculatePins n img).getD i (0, 0)).2 < img) ∧
    (∀ i : ℕ, i < n →
      (img : ℝ) / 2 - 2 ≤ calculateDistance
          ((((calculatePins n img).getD i (0, 0)).1 : ℝ),
           (((calculatePins n img).getD i (0, 0)).2 : ℝ))
          ((img : ℝ) / 2, (img : ℝ) / 2) ∧
      calculateDistance
          ((((calculatePins n img).getD i (0, 0)).1 : ℝ),
           (((calculatePins n img).getD i (0, 0)).2 : ℝ))
          ((img : ℝ) / 2, (img : ℝ) / 2) ≤ (img : ℝ) / 2 + 1) := by
  have hpin : ∀ i : ℕ, i < n →
      (calculatePins n img).getD i (0, 0) =
        (⌊(img : ℝ) / 2 + ((img : ℝ) / 2 - 0.5) *
            Real.cos (2 * Real.pi * (i : ℝ) / (n : ℝ))⌋,
         ⌊(img : ℝ) / 2 + ((img : ℝ) / 2 - 0.5) *
            Real.sin (2 * Real.pi * (i : ℝ) / (n : ℝ))⌋) := by
    intro i hi
    exact calculatePinPositions_getD n _ _ i hi
  have himgR : (100 : ℝ) ≤ (img : ℝ) := by exact_mod_cast h100
  have hs215 : Real.sqrt 2 ≤ 1.5 := by
    rw [show (1.5 : ℝ) = Real.sqrt (1.5 ^ 2) from (Real.sqrt_sq (by norm_num)).symm]
    apply Real.sqrt_le_sqrt
    norm_num
  have hrge : Real.sqrt 2 ≤ (img : ℝ) / 2 - 0.5 := by linarith
  refine ⟨?_, hpin, ?_, ?_⟩
  · unfold calculatePins calculatePinPositions
    simp
  · intro i hi
    rw [hpin i hi]
    set θ := 2 * Real.pi * (i : ℝ) / (n : ℝ)
    have hc1 := Real.neg_one_le_cos θ
    have hc2 := Real.cos_le_one θ
    have hs1 := Real.neg_one_le_sin θ
    have hs2 := Real.sin_le_one θ
    have hr0 : (0 : ℝ) ≤ (img : ℝ) / 2 - 0.5 := by linarith
    refine ⟨Int.le_floor.mpr ?_, Int.floor_lt.mpr ?_, Int.le_floor.mpr ?_,
      Int.floor_lt.mpr ?_⟩ <;> push_cast <;> nlinarith
  · intro i hi
    rw [hpin i hi]
    set θ := 2 * Real.pi * (i : ℝ) / (n : ℝ)
    have hd := dist_floor_circle ((img : ℝ) / 2) ((img : ℝ) / 2 - 0.5) θ hrge
    unfold calculateDistance
    constructor
    · refine le_trans (by linarith) (le_trans hd.1 (le_of_eq ?_))
      congr 1
    · refine le_trans (le_of_eq ?_) (le_trans hd.2 (by linarith))
      congr 1

/-- C7 counterexample: the claim states every pin's distance from the centre
lies in `[img_size/2 − 1.5, img_size/2 − 0.5]`.  With `n_pins = 8` and
`img_size = 100`, pin 5 sits at angle `5π/4` where both floors round the
coordinates from `≈14.998` down to `14`, pushing the pin *outward*: its
distance from the centre is `36·√2 ≈ 50.91`, above the claimed upper bound
`49.5`. -/
theorem calculatePins_distance_cex :
    (calculatePins 8 100).getD 5 (0, 0) = (14, 14) ∧
    (100 : ℝ) / 2 - 0.5 <
      calculateDistance
        ((((calculatePins 8 100).getD 5 (0, 0)).1 : ℝ),
         (((calculatePins 8 100).getD 5 (0, 0)).2 : ℝ))
        ((100 : ℝ) / 2, (100 : ℝ) / 2) := by
  have hs2a : (1.4142 : ℝ) < Real.sqrt 2 := by
    rw [Real.lt_sqrt (by norm_num)]
    norm_num
  have hs2b : Real.sqrt 2 < 1.41422 := by
    rw [Real.sqrt_lt' (by norm_num)]
    norm_num
  have hpin : (calculatePins 8 100).getD 5 (0, 0) = (14, 14) := by
    have h := calculatePinPositions_getD 8 (((100 : ℤ) : ℝ) / 2)
      (((100 : ℤ) : ℝ) / 2 - 0.5) 5 (by norm_num)
    rw [show (calculatePins 8 100) =
      calculatePinPositions 8 (((100 : ℤ) : ℝ) / 2) (((100 : ℤ) : ℝ) / 2 - 0.5) from rfl, h]
    have hangle : 2 * Real.pi * ((5 : ℕ) : ℝ) / ((8 : ℕ) : ℝ) = Real.pi + Real.pi / 4 := by
      push_cast
      ring
    have hcos : Real.cos (Real.pi + Real.pi / 4) = -(Real.sqrt 2 / 2) := by
      rw [Real.cos_add, Real.cos_pi, Real.sin_pi, Real.cos_pi_div_four]
      ring
    have hsin : Real.sin (Real.pi + Real.pi / 4) = -(Real.sqrt 2 / 2) := by
      rw [Real.sin_add, Real.cos_pi, Real.sin_pi, Real.sin_pi_div_four]
      ring
    rw [hangle, hcos, hsin]
    have hfloor : ⌊((100 : ℤ) : ℝ) / 2 + (((100 : ℤ) : ℝ) / 2 - 0.5) * -(Real.sqrt 2 / 2)⌋ =
        14 := by
      rw [Int.floor_eq_iff]
      push_cast
      constructor
      · nlinarith
      · nlinarith
    rw [hfloor]
  refine ⟨hpin, ?_⟩
  rw [hpin]
  unfold calculateDistance
  have hgoal : ((100 : ℝ) / 2 - ((14 : ℤ) : ℝ)) * ((100 : ℝ) / 2 - ((14 : ℤ) : ℝ)) +
      ((100 : ℝ) / 2 - ((14 : ℤ) : ℝ)) * ((100 : ℝ) / 2 - ((14 : ℤ) : ℝ)) = 2592 := by
    push_cast
    norm_num
  rw [show ((14, 14) : ℤ × ℤ).1 = 14 from rfl, show ((14, 14) : ℤ × ℤ).2 = 14 from rfl]
  rw [hgoal]
  rw [Real.lt_sqrt (by norm_num)]
  norm_num

/-- C7 witness: the amended bounds applied at `n_pins = 8, img_size = 100`
for pin 5. -/
theorem calculatePins_bounds_witness :
    (calculatePins 8 100).length = 8 ∧
    (0 ≤ ((calculatePins 8 100).getD 5 (0, 0)).1 ∧
      ((calculatePins 8 100).getD 5 (0, 0)).1 < 100) ∧
    (100 : ℝ) / 2 - 2 ≤ calculateDistance
        ((((calculatePins 8 100).getD 5 (0, 0)).1 : ℝ),
         (((calculatePins 8 100).getD 5 (0, 0)).2 : ℝ))
        ((100 : ℝ) / 2, (100 : ℝ) / 2) := by
  have h := calculatePins_bounds 8 100 (by norm_num) (by norm_num) (by norm_num) (by norm_num)
  exact ⟨h.1, ⟨(h.2.2.1 5 (by norm_num)).1, (h.2.2.1 5 (by norm_num)).2.1⟩,
    (h.2.2.2 5 (by norm_num)).1⟩

end StringArt
